import Mathlib

/-!
Verification development for the PiwikPRO log-analytics importer
(`piwik_pro_log_analytics/import_logs.py`).

The Python source is shallowly embedded: Python dicts become association
lists over `String` keys with insertion-order semantics (assignment to an
existing key keeps its position, a fresh key is appended at the end),
Python exceptions become explicit sum types, machine-level concerns do not
arise (CPython integers are unbounded).  Each embedded definition carries a
reference to the source lines it translates.
-/

namespace PyDict

/-- Lookup in a Python dict modelled as an association list
(first binding wins; keys are unique in every dict we build). -/
def get (d : List (String × α)) (k : String) : Option α :=
  (d.find? (fun p => p.1 == k)).map (·.2)

/-- Python dict assignment `d[k] = v`: an existing key is updated in place
(keeping its position and original key object), a fresh key is appended at
the end.  Keys are unique in every dict we build, so updating the first
matching entry is exact. -/
def set : List (String × α) → String → α → List (String × α)
  | [], k, v => [(k, v)]
  | p :: t, k, v => if p.1 == k then (p.1, v) :: t else p :: set t k v

/-- Python `d[k].append(v) if k in d else d[k] = [v]` (the accumulation
step of `urllib.parse.parse_qs`). -/
def appendVal : List (String × List α) → String → α → List (String × List α)
  | [], k, v => [(k, [v])]
  | p :: t, k, v => if p.1 == k then (p.1, p.2 ++ [v]) :: t else p :: appendVal t k v

/-- Python `k in d`. -/
def hasKey (d : List (String × α)) (k : String) : Bool :=
  d.any (fun p => p.1 == k)

theorem get_set_self (d : List (String × α)) (k : String) (v : α) :
    get (set d k v) k = some v := by
  induction d with
  | nil => simp [get, set]
  | cons p t ih =>
    by_cases h : p.1 = k
    · simp [get, set, h]
    · have hb : (p.1 == k) = false := by simp [h]
      simp only [set, hb, Bool.false_eq_true, if_false]
      simpa [get, List.find?_cons, hb] using ih

theorem get_set_ne (d : List (String × α)) (k k' : String) (v : α)
    (h : k' ≠ k) : get (set d k' v) k = get d k := by
  induction d with
  | nil => simp [get, set, h]
  | cons p t ih =>
    by_cases hp : p.1 = k'
    · have hb : (p.1 == k') = true := by simp [hp]
      have hbk : (p.1 == k) = false := by simp [hp, h]
      simp [get, set, hb, hbk, List.find?_cons]
    · have hb : (p.1 == k') = false := by simp [hp]
      simp only [set, hb, Bool.false_eq_true, if_false]
      by_cases hk : p.1 = k
      · simp [get, List.find?_cons, hk]
      · have hbk : (p.1 == k) = false := by simp [hk]
        simpa [get, List.find?_cons, hbk] using ih

theorem get_appendVal_self (d : List (String × List α)) (k : String) (v : α) :
    get (appendVal d k v) k = some ((get d k).getD [] ++ [v]) := by
  induction d with
  | nil => simp [get, appendVal]
  | cons p t ih =>
    by_cases h : p.1 = k
    · simp [get, appendVal, h]
    · have hb : (p.1 == k) = false := by simp [h]
      simp only [appendVal, hb, Bool.false_eq_true, if_false]
      simpa [get, List.find?_cons, hb] using ih

theorem get_appendVal_ne (d : List (String × List α)) (k k' : String) (v : α)
    (h : k' ≠ k) : get (appendVal d k' v) k = get d k := by
  induction d with
  | nil => simp [get, appendVal, h]
  | cons p t ih =>
    by_cases hp : p.1 = k'
    · have hb : (p.1 == k') = true := by simp [hp]
      have hbk : (p.1 == k) = false := by simp [hp, h]
      simp [get, appendVal, hb, hbk, List.find?_cons]
    · have hb : (p.1 == k') = false := by simp [hp]
      simp only [appendVal, hb, Bool.false_eq_true, if_false]
      by_cases hk : p.1 = k
      · simp [get, List.find?_cons, hk]
      · have hbk : (p.1 == k) = false := by simp [hk]
        simpa [get, List.find?_cons, hbk] using ih

/-- A successful lookup exhibits a member of the dict. -/
theorem get_some_mem (d : List (String × α)) (k : String) (v : α)
    (h : get d k = some v) : (k, v) ∈ d := by
  induction d with
  | nil => simp [get] at h
  | cons p t ih =>
    by_cases hp : p.1 = k
    · have hfind : List.find? (fun q => q.1 == k) (p :: t) = some p :=
        List.find?_cons_of_pos _ (by simp [hp])
      simp only [get, hfind, Option.map_some', Option.some.injEq] at h
      have hpv : p = (k, v) := Prod.ext hp h
      rw [← hpv]
      exact List.mem_cons_self p t
    · have hb : (p.1 == k) = false := by simp [hp]
      simp only [get, List.find?_cons, hb] at h
      exact List.mem_cons_of_mem p (ih h)

/-- A failed lookup means no entry has the key. -/
theorem get_none_not_mem (d : List (String × α)) (k : String)
    (h : get d k = none) : ∀ p ∈ d, p.1 ≠ k := by
  induction d with
  | nil => intro p hp; simp at hp
  | cons q t ih =>
    intro p hp
    by_cases hq : q.1 = k
    · simp [get, List.find?_cons, hq] at h
    · have hb : (q.1 == k) = false := by simp [hq]
      simp only [get, List.find?_cons, hb] at h
      rcases List.mem_cons.mp hp with hp | hp
      · rw [hp]; exact hq
      · exact ih h p hp

end PyDict

/-! ## Hit, configuration options and counters

`Hit` (source lines 2420-2468) is a plain container; we keep the fields the
filter chain, the request-builder rules and the recorder consult.
`hit.host` is optional (`hasattr(hit, "host")` in the source).
-/

structure Hit where
  host : Option String := none
  ip : String := ""
  path : String := ""
  extension : String := ""
  user_agent : String := ""
  status : String := ""
  is_download : Bool := false
  is_robot : Bool := false
  is_error : Bool := false
  is_redirect : Bool := false
  args : List (String × String) := []
  deriving Repr, DecidableEq

/-- The subset of `config.options` consulted by the code under study. -/
structure Options where
  hostnames : List String := []
  enable_static : Bool := false
  enable_bots : Bool := false
  enable_http_errors : Bool := false
  enable_http_redirects : Bool := false
  replay_tracking : Bool := false
  download_extensions : List String := []
  excluded_useragents : List String := []
  excluded_paths : List String := []
  included_paths : List String := []
  title_category_delimiter : String := "/"
  deriving Repr

/-- The statistics counters touched by the filter chain (source `Statistics`). -/
structure Stats where
  count_lines_hostname_skipped : Nat := 0
  count_lines_static : Nat := 0
  count_lines_downloads : Nat := 0
  count_lines_skipped_downloads : Nat := 0
  count_lines_skipped_user_agent : Nat := 0
  count_lines_skipped_http_errors : Nat := 0
  count_lines_skipped_http_redirects : Nat := 0
  deriving Repr, DecidableEq

/-! ## C1: the error/redirect title rule

Source lines 2125-2143, class `ErrorOrRedirectRule`.  The guard on line
2128 is translated verbatim: it reads
`if args_config.hit.is_error or args_config.hit.is_error` — the second
disjunct repeats `is_error`; `is_redirect` is never consulted.
`urllib.parse.quote` is abstracted as the `quote` parameter (the rule's
behaviour does not depend on its definition). -/
def ErrorOrRedirectRule_execute (quote : String → String) (opts : Options)
    (hit : Hit) (args : List (String × String)) : List (String × String) :=
  if hit.is_error || hit.is_error then
    PyDict.set args "action_name"
      (hit.status ++ opts.title_category_delimiter ++ "URL = " ++
        quote ((PyDict.get args "url").getD "") ++
        (match PyDict.get args "urlref" with
         | some r => opts.title_category_delimiter ++ "From = " ++ quote r
         | none => ""))
  else args

/-! ## C3: partial-batch recovery

Source lines 2393-2417, `Recorder._is_json` and
`Recorder._on_tracking_failure`.  The tracker response either fails to
parse as JSON (the callback returns it unchanged) or parses to an object
with an integer `tracked` field and a `message` field. -/

/-- Outcome of `json.loads(response)` inside `_on_tracking_failure`. -/
inductive TrackerResponse where
  | notJson (raw : String)
  | json (tracked : Int) (message : String)
  deriving Repr, DecidableEq

/-- Python slice `l[k:]` for a possibly negative integer start index. -/
def pySliceFrom (k : Int) (l : List α) : List α :=
  if 0 ≤ k then l.drop k.toNat else l.drop (l.length - (-k).toNat)

/-- Source lines 2400-2417.  Returns the new `data["requests"]` list and the
value returned by the callback (the raw response when it is not JSON, the
`message` field otherwise). -/
def on_tracking_failure (response : TrackerResponse) (requests : List α) :
    List α × String :=
  match response with
  | .notJson raw => (requests, raw)
  | .json tracked message => (pySliceFrom tracked requests, message)

/-! ## C7: timezone normalization

Source lines 1625-1635 (`TimeHelper.timedelta_from_timezone`) and
2946-2966 (`Parser.parse`).  Dates are modelled as integer seconds; the
returned timedelta is its total number of seconds. -/

namespace TimeHelper

/-- Source lines 1626-1635.  `timezone` is the integer value of the
timezone field (Python `int(timezone)`); the result is the timedelta in
seconds.  `int(n / 100)` on a non-negative `n` is floor division. -/
def timedelta_from_timezone (timezone : Int) : Int :=
  ((timezone.natAbs / 100 : Nat) : Int) * (if 0 ≤ timezone then 1 else -1) * 3600 +
    ((timezone.natAbs % 100 : Nat) : Int) * (if 0 ≤ timezone then 1 else -1) * 60

end TimeHelper

/-- Source lines 2949-2961: the stored hit date is
`strptime(date_string, date_format) + seconds_to_add_to_date` minus the
timezone delta.  `strptimeVal` stands for the parsed date in seconds. -/
def parse_hit_date (strptimeVal : Int) (seconds_to_add_to_date : Int)
    (timezone : Int) : Int :=
  strptimeVal + seconds_to_add_to_date - TimeHelper.timedelta_from_timezone timezone

/-! ## The filter chain (C2, C8)

Source lines 2477-2568.  `Parser.__init__` collects every `check_*`
method via `inspect.getmembers`, which returns members **sorted by
name**; the chain therefore runs in alphabetical order:
`check_download`, `check_hostname`, `check_http_error`,
`check_http_redirect`, `check_path`, `check_static`, `check_user_agent`
(`check_format` is a static method and is not collected).
`Parser.parse` line 2943 evaluates `all(method(hit) for method in
self.check_methods)` over a generator, so the first failing check
short-circuits the rest.  `fnmatch.fnmatch` is abstracted as the
`fnmatch` parameter. -/

/-- Source lines 60-62. -/
def STATIC_EXTENSIONS : List String :=
  ["gif", "jpg", "jpeg", "png", "bmp", "ico", "svg", "svgz", "ttf", "otf",
   "eot", "woff", "woff2", "class", "swf", "css", "js", "xml", "webp"]

/-- Source line 64. -/
def STATIC_FILES : List String := ["robots.txt"]

/-- Source lines 66-74. -/
def DOWNLOAD_EXTENSIONS : List String :=
  ["7z", "aac", "arc", "arj", "asf", "asx", "avi", "bin", "csv", "deb",
   "dmg", "doc", "docx", "exe", "flac", "flv", "gz", "gzip", "hqx",
   "ibooks", "jar", "json", "mpg", "mp2", "mp3", "mp4", "mpeg", "mov",
   "movie", "msi", "msp", "odb", "odf", "odg", "odp", "ods", "odt", "ogg",
   "ogv", "pdf", "phps", "ppt", "pptx", "qt", "qtm", "ra", "ram", "rar",
   "rpm", "rtf", "sea", "sit", "tar", "tbz", "bz2", "tbz", "tgz",
   "torrent", "txt", "wav", "webm", "wma", "wmv", "wpd", "xls", "xlsx",
   "xml", "xsd", "z", "zip", "azw3", "epub", "mobi", "apk"]

/-- Source lines 78-108. -/
def EXCLUDED_USER_AGENTS : List String :=
  ["adsbot-google", "ask jeeves", "baidubot", "bot-", "bot/", "ccooter/",
   "crawl", "curl", "echoping", "exabot", "feed", "googlebot",
   "ia_archiver", "java/", "libwww", "mediapartners-google", "msnbot",
   "netcraftsurvey", "panopta", "pingdom.com_bot_", "robot", "spider",
   "surveybot", "twiceler", "voilabot", "yahoo", "yandex", "zabbix",
   "googlestackdrivermonitoring"]

/-- Python `needle in hay` on strings (substring test). -/
def substring_of (needle hay : String) : Bool :=
  decide (needle.toList <:+: hay.toList)

/-- Source lines 2487-2496 (`Parser.check_hostname`). -/
def check_hostname (fnmatch : String → String → Bool) (opts : Options)
    (hit : Hit) (stats : Stats) : Bool × Hit × Stats :=
  match hit.host with
  | none => (true, hit, stats)
  | some host =>
    if opts.hostnames.isEmpty then (true, hit, stats)
    else if opts.hostnames.any (fun pattern => fnmatch host pattern) then
      (true, hit, stats)
    else
      (false, hit,
        { stats with count_lines_hostname_skipped :=
            stats.count_lines_hostname_skipped + 1 })

/-- Source lines 2498-2508 (`Parser.check_static`). -/
def check_static (opts : Options) (hit : Hit) (stats : Stats) :
    Bool × Hit × Stats :=
  let filename := (hit.path.splitOn "/").getLastD ""
  if STATIC_EXTENSIONS.contains hit.extension || STATIC_FILES.contains filename then
    if opts.enable_static then (true, { hit with is_download := true }, stats)
    else (false, hit, { stats with count_lines_static := stats.count_lines_static + 1 })
  else (true, hit, stats)

/-- Source lines 2510-2520 (`Parser.check_download`). -/
def check_download (opts : Options) (hit : Hit) (stats : Stats) :
    Bool × Hit × Stats :=
  if opts.download_extensions.contains hit.extension then
    (true, { hit with is_download := true },
      { stats with count_lines_downloads := stats.count_lines_downloads + 1 })
  else if DOWNLOAD_EXTENSIONS.contains hit.extension then
    (false, hit,
      { stats with count_lines_skipped_downloads :=
          stats.count_lines_skipped_downloads + 1 })
  else (true, hit, stats)

/-- Source lines 2522-2532 (`Parser.check_user_agent`). -/
def check_user_agent (opts : Options) (hit : Hit) (stats : Stats) :
    Bool × Hit × Stats :=
  let ua := hit.user_agent.toLower
  match (EXCLUDED_USER_AGENTS ++ opts.excluded_useragents).find?
      (fun s => substring_of s ua) with
  | some _ =>
    if opts.enable_bots then (true, { hit with is_robot := true }, stats)
    else
      (false, hit,
        { stats with count_lines_skipped_user_agent :=
            stats.count_lines_skipped_user_agent + 1 })
  | none => (true, hit, stats)

/-- Source lines 2534-2546 (`Parser.check_http_error`); `hit.status[0]`
is the first character of the status string. -/
def check_http_error (opts : Options) (hit : Hit) (stats : Stats) :
    Bool × Hit × Stats :=
  if hit.status.front == '4' || hit.status.front == '5' then
    if opts.replay_tracking then (true, hit, stats)
    else if opts.enable_http_errors then (true, { hit with is_error := true }, stats)
    else
      (false, hit,
        { stats with count_lines_skipped_http_errors :=
            stats.count_lines_skipped_http_errors + 1 })
  else (true, hit, stats)

/-- Source lines 2548-2556 (`Parser.check_http_redirect`). -/
def check_http_redirect (opts : Options) (hit : Hit) (stats : Stats) :
    Bool × Hit × Stats :=
  if hit.status.front == '3' && hit.status != "304" then
    if opts.enable_http_redirects then (true, { hit with is_redirect := true }, stats)
    else
      (false, hit,
        { stats with count_lines_skipped_http_redirects :=
            stats.count_lines_skipped_http_redirects + 1 })
  else (true, hit, stats)

/-- Source lines 2558-2568 (`Parser.check_path`). -/
def check_path (fnmatch : String → String → Bool) (opts : Options)
    (hit : Hit) (stats : Stats) : Bool × Hit × Stats :=
  if opts.excluded_paths.any (fun p => fnmatch hit.path p) then (false, hit, stats)
  else if opts.included_paths.isEmpty then (true, hit, stats)
  else if opts.included_paths.any (fun p => fnmatch hit.path p) then (true, hit, stats)
  else (false, hit, stats)

/-- Source lines 2477-2482 (`Parser.__init__`): the `check_*` methods in
the order produced by `inspect.getmembers`, i.e. sorted by method name. -/
def check_methods (fnmatch : String → String → Bool) (opts : Options) :
    List (Hit → Stats → Bool × Hit × Stats) :=
  [check_download opts, check_hostname fnmatch opts, check_http_error opts,
   check_http_redirect opts, check_path fnmatch opts, check_static opts,
   check_user_agent opts]

/-- Source line 2943: `all(method(hit) for method in self.check_methods)`
over a generator — each check may mutate the hit and the counters, and the
first rejection stops the evaluation. -/
def run_checks : List (Hit → Stats → Bool × Hit × Stats) → Hit → Stats →
    Bool × Hit × Stats
  | [], hit, stats => (true, hit, stats)
  | c :: cs, hit, stats =>
    match c hit stats with
    | (false, hit', stats') => (false, hit', stats')
    | (true, hit', stats') => run_checks cs hit' stats'

/-! ### Theorems for C1, C3, C7 -/

/-- C1: the claim states that a hit with `is_redirect` true and `is_error`
false receives an error/redirect `action_name`.  The code (line 2128 reads
`hit.is_error or hit.is_error`) leaves the argument map unchanged on such a
hit: `action_name` is absent from the produced args.  The class name
`ErrorOrRedirectRule` and the spec both document the intent as
`is_error or is_redirect`, so this is a slip in the code. -/
theorem C1_redirect_hit_gets_no_action_name :
    let hit : Hit := { status := "301", is_error := false, is_redirect := true }
    let out := ErrorOrRedirectRule_execute id {} hit [("url", "http://example.org/a")]
    out = [("url", "http://example.org/a")] ∧
      PyDict.get out "action_name" = none := by
  constructor <;> rfl

/-- C3: on a JSON failure response with `tracked = k` (for `0 ≤ k ≤ n`,
`n` the number of requests), the callback replaces the request list by the
suffix starting at index `k` (so `n - k` requests are resent, in their
original order, and the accepted prefix `take k` is exactly what is no
longer sent); trimming composes additively, so an accepted request is
never resent by later trims; a non-JSON response leaves the request list
unchanged and is returned raw. -/
theorem C3_partial_batch_trimming (α : Type) (requests : List α) (k k' : Nat)
    (m m' raw : String) (hk : k ≤ requests.length) :
    on_tracking_failure (.json (k : Int) m) requests = (requests.drop k, m) ∧
    (requests.drop k).length = requests.length - k ∧
    requests.take k ++ requests.drop k = requests ∧
    on_tracking_failure (.json (k' : Int) m') (requests.drop k) =
      (requests.drop (k + k'), m') ∧
    on_tracking_failure (.notJson raw) requests = (requests, raw) := by
  refine ⟨?_, ?_, ?_, ?_, rfl⟩
  · simp [on_tracking_failure, pySliceFrom]
  · simp
  · simp
  · simp [on_tracking_failure, pySliceFrom, List.drop_drop]

/-- C3 witness: ten requests, response `tracked = 4`; six requests
(the original indices 4..9) remain, in order. -/
theorem C3_partial_batch_trimming_witness :
    on_tracking_failure (.json (4 : Int) "bad #5")
        [0, 1, 2, 3, 4, 5, 6, 7, 8, 9] = ([4, 5, 6, 7, 8, 9], "bad #5") ∧
    4 ≤ 10 := by
  have h := C3_partial_batch_trimming Nat [0, 1, 2, 3, 4, 5, 6, 7, 8, 9]
    4 0 "bad #5" "" "" (by decide)
  exact ⟨h.1, by decide⟩

/-- C7: for a timezone field `±HHMM` (with `MM < 100`), the stored date is
`strptime(date) + seconds_to_add_to_date` minus `±(HH hours + MM minutes)`,
for both signs. -/
theorem C7_timezone_normalization (d s : Int) (hh mm : Nat) (hmm : mm < 100) :
    parse_hit_date d s ((hh * 100 + mm : Nat) : Int) =
      d + s - ((hh : Int) * 3600 + (mm : Int) * 60) ∧
    parse_hit_date d s (-((hh * 100 + mm : Nat) : Int)) =
      d + s + ((hh : Int) * 3600 + (mm : Int) * 60) := by
  unfold parse_hit_date TimeHelper.timedelta_from_timezone
  constructor <;> (split <;> omega)

/-- C7 witness: timezone `-0730` on a concrete date. -/
theorem C7_timezone_normalization_witness :
    parse_hit_date 1000000 5 (-(730 : Int)) = 1000000 + 5 + (7 * 3600 + 30 * 60) ∧
    (30 : Nat) < 100 := by
  have h := C7_timezone_normalization 1000000 5 7 30 (by decide)
  exact ⟨by exact_mod_cast h.2, by decide⟩

/-- C2 counterexample: the claim says the hostname check runs first and a
host-mismatched hit never reaches the download check.  In the code the
chain runs in alphabetical method order, so `check_download` runs before
`check_hostname`: this concrete hit (extension `zip` configured as a
download, host matching no configured hostname pattern) is rejected, yet
it has been marked `is_download` and the downloads counter has been
incremented.  `fnmatch` is instantiated with string equality, which is
what `fnmatch.fnmatch` computes on a wildcard-free pattern. -/
theorem C2_download_check_runs_before_hostname :
    run_checks
      (check_methods (fun s p => s == p)
        { hostnames := ["allowed.example"], download_extensions := ["zip"] })
      { host := some "other.example", path := "/f.zip", extension := "zip",
        status := "200", user_agent := "Mozilla" }
      {} =
    (false,
      { host := some "other.example", path := "/f.zip", extension := "zip",
        status := "200", user_agent := "Mozilla", is_download := true },
      { count_lines_downloads := 1, count_lines_hostname_skipped := 1 }) := by
  decide

/-- C2 amended: the chain evaluates in alphabetical method-name order
(download, hostname, http-error, http-redirect, path, static, user-agent)
and a rejection short-circuits all later checks.  A hit whose host matches
no configured hostname pattern is rejected by `check_hostname`, but
`check_download` has already run: if its extension is in the configured
download set the hit is marked `is_download` and the downloads counter is
incremented before the rejection. -/
theorem C2_filter_chain_order (fnmatch : String → String → Bool)
    (opts : Options) (hit : Hit) (stats : Stats) (host : String)
    (hhost : hit.host = some host)
    (hne : opts.hostnames ≠ [])
    (hnomatch : ∀ p ∈ opts.hostnames, fnmatch host p = false)
    (hdl : opts.download_extensions.contains hit.extension = true) :
    run_checks (check_methods fnmatch opts) hit stats =
      (false, { hit with is_download := true },
        { stats with
            count_lines_downloads := stats.count_lines_downloads + 1,
            count_lines_hostname_skipped := stats.count_lines_hostname_skipped + 1 }) := by
  have hisEmpty : opts.hostnames.isEmpty = false := by
    cases h : opts.hostnames with
    | nil => exact absurd h hne
    | cons a l => rfl
  have hany : opts.hostnames.any (fun pattern => fnmatch host pattern) = false := by
    simp only [List.any_eq_false]
    intro p hp
    simp [hnomatch p hp]
  simp only [check_methods, run_checks, check_download, hdl, if_true]
  simp only [check_hostname, hhost, hisEmpty, hany]
  simp

/-- C2 amended, witness: the concrete hit of the counterexample again,
through the general theorem. -/
theorem C2_filter_chain_order_witness :
    run_checks
      (check_methods (fun s p => s == p)
        { hostnames := ["allowed.example"], download_extensions := ["zip"] })
      { host := some "other.example", path := "/f.zip", extension := "zip",
        status := "200", user_agent := "Mozilla" }
      {} =
    (false,
      { host := some "other.example", path := "/f.zip", extension := "zip",
        status := "200", user_agent := "Mozilla", is_download := true },
      { count_lines_downloads := 1, count_lines_hostname_skipped := 1 }) := by
  have h := C2_filter_chain_order (fun s p => s == p)
    { hostnames := ["allowed.example"], download_extensions := ["zip"] }
    { host := some "other.example", path := "/f.zip", extension := "zip",
      status := "200", user_agent := "Mozilla" }
    {} "other.example" rfl (by decide) (by decide) (by decide)
  exact h

/-- C8: `check_http_redirect` classifies as redirect exactly the statuses
whose first character is `3` and that differ from `304`; a classified hit
is kept with `is_redirect` set when redirect tracking is enabled and
otherwise dropped with the skipped-redirects counter incremented, and any
other status (in particular `304`) passes through unchanged. -/
theorem C8_http_redirect_classification (opts : Options) (hit : Hit)
    (stats : Stats) (hne : hit.status ≠ "") :
    (hit.status.front = '3' ∧ hit.status ≠ "304" →
      (opts.enable_http_redirects = true →
        check_http_redirect opts hit stats =
          (true, { hit with is_redirect := true }, stats)) ∧
      (opts.enable_http_redirects = false →
        check_http_redirect opts hit stats =
          (false, hit,
            { stats with count_lines_skipped_http_redirects :=
                stats.count_lines_skipped_http_redirects + 1 }))) ∧
    (¬(hit.status.front = '3' ∧ hit.status ≠ "304") →
      check_http_redirect opts hit stats = (true, hit, stats)) := by
  constructor
  · rintro ⟨h3, h304⟩
    have hcond : (hit.status.front == '3' && hit.status != "304") = true := by
      simp [h3, h304]
    constructor
    · intro he
      simp [check_http_redirect, hcond, he]
    · intro he
      simp [check_http_redirect, hcond, he]
  · intro hnot
    have hcond : (hit.status.front == '3' && hit.status != "304") = false := by
      rcases not_and_or.mp hnot with h | h
      · simp [h]
      · simp only [not_not] at h
        simp [h]
    simp [check_http_redirect, hcond]

/-- C8 witness: status `304` passes through unchanged (the boundary
scenario of the spec), and a `301` with redirect tracking disabled is
dropped with the counter incremented. -/
theorem C8_http_redirect_classification_witness :
    check_http_redirect {} { status := "304" } {} = (true, { status := "304" }, {}) ∧
    check_http_redirect {} { status := "301" } {} =
      (false, { status := "301" },
        { count_lines_skipped_http_redirects := 1 }) := by
  constructor
  · exact (C8_http_redirect_classification {} { status := "304" } {}
      (by decide)).2 (by decide)
  · exact ((C8_http_redirect_classification {} { status := "301" } {}
      (by decide)).1 (by decide)).2 rfl

/-! ## C5: sharding hits over the recorder pool

Source lines 2433-2442 (`Hit.get_visitor_id_hash`) and 2212-2224
(`Recorder.add_hits`).  Python's string `hash` is abstracted as the
`pyhash` parameter; `abs` on the resulting integer is `Int.natAbs`. -/

/-- Source lines 2433-2442: the visitor id is the hit's IP, or in replay
mode the value of the first present among the `uid`, `cid`, `_id`, `cip`
args; the hash is `abs(hash(visitor_id))`. -/
def get_visitor_id_hash (pyhash : String → Int) (replay_tracking : Bool)
    (hit : Hit) : Nat :=
  let visitor_id :=
    if replay_tracking then
      match ["uid", "cid", "_id", "cip"].find? (fun p => PyDict.hasKey hit.args p) with
      | some p => (PyDict.get hit.args p).getD hit.ip
      | none => hit.ip
    else hit.ip
  (pyhash visitor_id).natAbs

/-- Source lines 2212-2224: `hits_by_client` starts as `recorder_count`
empty lists; each hit is appended to the list at index
`hit.get_visitor_id_hash() % len(cls.recorders)`; each recorder then
receives its own list as a single queue item. -/
def add_hits (pyhash : String → Int) (replay_tracking : Bool)
    (recorder_count : Nat) (all_hits : List Hit) : List (List Hit) :=
  all_hits.foldl
    (fun acc hit =>
      let i := get_visitor_id_hash pyhash replay_tracking hit % recorder_count
      acc.set i (acc.getD i [] ++ [hit]))
    (List.replicate recorder_count [])

/-- The fold of `add_hits` keeps the accumulator's length. -/
theorem add_hits_fold_length (worker : Hit → Nat) (hits : List Hit)
    (acc : List (List Hit)) :
    (hits.foldl (fun acc hit =>
        acc.set (worker hit) (acc.getD (worker hit) [] ++ [hit])) acc).length =
      acc.length := by
  induction hits generalizing acc with
  | nil => rfl
  | cons h hs ih => rw [List.foldl_cons, ih, List.length_set]

/-- Invariant of the `add_hits` fold: group `i` is the accumulator's group
`i` followed by the hits of the batch whose worker index is `i`, in batch
order. -/
theorem add_hits_fold_getD (worker : Hit → Nat) (hits : List Hit)
    (acc : List (List Hit)) (hw : ∀ h, worker h < acc.length) (i : Nat) :
    (hits.foldl (fun acc hit =>
        acc.set (worker hit) (acc.getD (worker hit) [] ++ [hit])) acc).getD i [] =
      acc.getD i [] ++ hits.filter (fun h => worker h == i) := by
  induction hits generalizing acc with
  | nil => simp
  | cons h hs ih =>
    rw [List.foldl_cons]
    rw [ih _ (by intro x; rw [List.length_set]; exact hw x)]
    by_cases hi : worker h = i
    · subst hi
      have hset : (acc.set (worker h) (acc.getD (worker h) [] ++ [h])).getD (worker h) [] =
          acc.getD (worker h) [] ++ [h] := by
        rw [List.getD_eq_getElem?_getD, List.getElem?_set_eq_of_lt _ (hw h)]
        rfl
      rw [hset]
      simp [List.filter_cons]
    · have hset : (acc.set (worker h) (acc.getD (worker h) [] ++ [h])).getD i [] =
          acc.getD i [] := by
        simp [List.getD_eq_getElem?_getD, List.getElem?_set_ne hi]
      rw [hset]
      have : (worker h == i) = false := by simp [hi]
      simp [List.filter_cons, this]

/-- C5: for a batch flushed to `N > 0` recorders, `add_hits` produces one
group per worker; group `i` is exactly the sub-sequence of the batch whose
visitor hash (hash of IP, or in replay mode of the first present among
`uid`/`cid`/`_id`/`cip`) satisfies `abs(hash) % N = i`, keeping batch
order; hence every hit of the batch lands in exactly the group of its own
worker index.  Each group is put on its worker's queue as a single item
(source lines 2223-2224). -/
theorem C5_sharding (pyhash : String → Int) (replay_tracking : Bool)
    (N : Nat) (hN : 0 < N) (all_hits : List Hit) :
    (add_hits pyhash replay_tracking N all_hits).length = N ∧
    (∀ i, i < N → (add_hits pyhash replay_tracking N all_hits).getD i [] =
      all_hits.filter
        (fun h => get_visitor_id_hash pyhash replay_tracking h % N == i)) ∧
    (∀ hit ∈ all_hits,
      hit ∈ (add_hits pyhash replay_tracking N all_hits).getD
        (get_visitor_id_hash pyhash replay_tracking hit % N) []) := by
  have hw : ∀ h : Hit,
      get_visitor_id_hash pyhash replay_tracking h % N <
        (List.replicate N ([] : List Hit)).length := by
    intro h
    rw [List.length_replicate]
    exact Nat.mod_lt _ hN
  have hgetD : ∀ i,
      (add_hits pyhash replay_tracking N all_hits).getD i [] =
        (List.replicate N ([] : List Hit)).getD i [] ++
          all_hits.filter
            (fun h => get_visitor_id_hash pyhash replay_tracking h % N == i) := by
    intro i
    exact add_hits_fold_getD _ all_hits _ hw i
  have hrep : ∀ i, (List.replicate N ([] : List Hit)).getD i [] = [] := by
    intro i
    rw [List.getD_eq_getElem?_getD]
    rcases Nat.lt_or_ge i N with h | h
    · rw [List.getElem?_replicate_of_lt h]
      rfl
    · rw [List.getElem?_eq_none (by simpa using h)]
      rfl
  refine ⟨?_, ?_, ?_⟩
  · rw [add_hits, add_hits_fold_length, List.length_replicate]
  · intro i _
    rw [hgetD i, hrep i, List.nil_append]
  · intro hit hmem
    rw [hgetD _, hrep _, List.nil_append]
    exact List.mem_filter.mpr ⟨hmem, by simp⟩

/-- C5 witness: two recorders, `pyhash` the string length minus three,
three hits with IPs `a`, `bb`, `ccc`: abs-hash mod 2 routes `a` and `bb`
to worker 0 (`|1-3| % 2 = 0`, `|2-3| % 2 = 1` — so `bb` to worker 1) and
the groups keep batch order. -/
theorem C5_sharding_witness :
    (0 : Nat) < 2 ∧
    (add_hits (fun s => (s.length : Int) - 3) false 2
        [{ ip := "a" }, { ip := "bb" }, { ip := "ccc" }]).getD 0 [] =
      [{ ip := "a" }, { ip := "ccc" }] := by
  refine ⟨by decide, ?_⟩
  have h := (C5_sharding (fun s => (s.length : Int) - 3) false 2 (by decide)
    [{ ip := "a" }, { ip := "bb" }, { ip := "ccc" }]).2.1 0 (by decide)
  rw [h]
  decide

/-! ## C4: format auto-detection tie-break

Source lines 2583-2619 (`Parser.check_format`) and 532-549 (the `FORMATS`
registry).  A candidate either does not match the probed line/file, or
matches with a `re.Match` whose `groups()` has a definite length, or
matches with a result that has no `groups()` method — the nginx JSON
format returns `self` (line 170) or `True` (line 157), so `len(match.groups())`
raises `AttributeError` and the `except AttributeError` branch on lines
2608-2609 assigns the candidate *unconditionally*, without updating
`format_groups`. -/

/-- Outcome of `Parser._try_match` for one candidate format. -/
inductive MatchResult where
  | noMatch
  | groups (n : Nat)
  | matchNoGroups
  deriving Repr, DecidableEq

/-- Source lines 532-549: the registration order of the `FORMATS` dict
(Python dicts iterate in insertion order). -/
def FORMATS_order : List String :=
  ["common", "common_vhost", "ncsa_extended", "common_complete",
   "w3c_extended", "amazon_cloudfront", "incapsula_w3c", "iis", "shoutcast",
   "s3", "icecast2", "elb", "nginx_json", "ovh", "haproxy", "gandi"]

/-- Source lines 2585-2611: the loop body of `check_format`.  The
accumulator is the pair `(format, format_groups)`; the selected format is
identified by its registry name. -/
def check_format_step (outcome : String → MatchResult)
    (acc : Option String × Nat) (name : String) : Option String × Nat :=
  if name == "ovh" then acc
  else
    match outcome name with
    | .noMatch => acc
    | .groups n => if acc.2 < n then (some name, n) else acc
    | .matchNoGroups => (some name, acc.2)

/-- Source lines 2583-2619: fold the loop body over the registry in
registration order; `False` (no format found) is `none`. -/
def check_format (outcome : String → MatchResult) : Option String :=
  (FORMATS_order.foldl (check_format_step outcome) (none, 0)).1

/-- Invariant of the `check_format` loop: either nothing is selected and
every group-bearing match seen so far had zero groups, or the selected
format matched with `acc.2` groups, every format before it matched with
strictly fewer groups, and every format after it with at most as many. -/
def cf_inv (outcome : String → MatchResult) (processed : List String)
    (acc : Option String × Nat) : Prop :=
  match acc with
  | (none, g) => g = 0 ∧
      ∀ n ∈ processed, n ≠ "ovh" → ∀ g', outcome n = .groups g' → g' = 0
  | (some sel, g) =>
      ∃ l₁ l₂, processed = l₁ ++ sel :: l₂ ∧ sel ≠ "ovh" ∧
        outcome sel = .groups g ∧
        (∀ n ∈ l₁, n ≠ "ovh" → ∀ g', outcome n = .groups g' → g' < g) ∧
        (∀ n ∈ l₂, n ≠ "ovh" → ∀ g', outcome n = .groups g' → g' ≤ g)
/-- Every format seen so far matched with at most `g` groups (whatever is
currently selected). -/
theorem cf_inv_bound (outcome : String → MatchResult) (processed : List String)
    (osel : Option String) (g : Nat) (h : cf_inv outcome processed (osel, g)) :
    ∀ x ∈ processed, x ≠ "ovh" → ∀ g', outcome x = .groups g' → g' ≤ g := by
  cases osel with
  | none =>
    obtain ⟨hg0, hall⟩ := h
    intro x hx hxo g' hg'
    have := hall x hx hxo g' hg'
    omega
  | some sel =>
    obtain ⟨l₁, l₂, hp, _hso, hout, h₁, h₂⟩ := h
    subst hp
    intro x hx hxo g' hg'
    rcases List.mem_append.mp hx with hx | hx
    · exact le_of_lt (h₁ x hx hxo g' hg')
    · rcases List.mem_cons.mp hx with hx | hx
      · rw [hx, hout] at hg'
        injection hg' with hgg
        omega
      · exact h₂ x hx hxo g' hg'

/-- Appending a format that does not displace the current selection
(`ovh`, a non-match, or a match with at most the current group count)
preserves the invariant. -/
theorem cf_inv_append (outcome : String → MatchResult) (processed : List String)
    (osel : Option String) (g : Nat) (n : String)
    (h : cf_inv outcome processed (osel, g))
    (hn : n = "ovh" ∨ ∀ g', outcome n = .groups g' → g' ≤ g) :
    cf_inv outcome (processed ++ [n]) (osel, g) := by
  cases osel with
  | none =>
    obtain ⟨hg0, hall⟩ := h
    refine ⟨hg0, ?_⟩
    intro x hx hxo g' hg'
    rcases List.mem_append.mp hx with hx | hx
    · exact hall x hx hxo g' hg'
    · have hxn : x = n := by simpa using hx
      subst hxn
      rcases hn with hn | hn
      · exact absurd hn hxo
      · have := hn g' hg'
        omega
  | some sel =>
    obtain ⟨l₁, l₂, hp, hso, hout, h₁, h₂⟩ := h
    refine ⟨l₁, l₂ ++ [n], by rw [hp]; simp, hso, hout, h₁, ?_⟩
    intro x hx hxo g' hg'
    rcases List.mem_append.mp hx with hx | hx
    · exact h₂ x hx hxo g' hg'
    · have hxn : x = n := by simpa using hx
      subst hxn
      rcases hn with hn | hn
      · exact absurd hn hxo
      · exact hn g' hg'

/-- Appending a format that strictly beats every match seen so far makes it
the selection. -/
theorem cf_inv_select (outcome : String → MatchResult) (processed : List String)
    (n : String) (m : Nat) (hno : n ≠ "ovh") (hout : outcome n = .groups m)
    (hprev : ∀ x ∈ processed, x ≠ "ovh" → ∀ g', outcome x = .groups g' → g' < m) :
    cf_inv outcome (processed ++ [n]) (some n, m) :=
  ⟨processed, [], rfl, hno, hout, hprev, by intro x hx; simp at hx⟩

/-- One loop iteration of `check_format` preserves the invariant (given
that no candidate's match lacks a `groups()` method). -/
theorem cf_inv_step (outcome : String → MatchResult)
    (honly : ∀ m, outcome m ≠ .matchNoGroups)
    (processed : List String) (acc : Option String × Nat) (n : String)
    (h : cf_inv outcome processed acc) :
    cf_inv outcome (processed ++ [n]) (check_format_step outcome acc n) := by
  obtain ⟨osel, g⟩ := acc
  by_cases hovh : n = "ovh"
  · have hstep : check_format_step outcome (osel, g) n = (osel, g) := by
      unfold check_format_step
      rw [if_pos (by simp [hovh])]
    rw [hstep]
    exact cf_inv_append outcome processed osel g n h (Or.inl hovh)
  · have hbeq : (n == "ovh") = false := by simp [hovh]
    cases houtn : outcome n with
    | matchNoGroups => exact absurd houtn (honly n)
    | noMatch =>
      have hstep : check_format_step outcome (osel, g) n = (osel, g) := by
        unfold check_format_step
        rw [if_neg (by simp [hovh]), houtn]
      rw [hstep]
      refine cf_inv_append outcome processed osel g n h (Or.inr ?_)
      intro g' hg'
      rw [houtn] at hg'
      cases hg'
    | groups m =>
      by_cases hlt : g < m
      · have hstep : check_format_step outcome (osel, g) n = (some n, m) := by
          unfold check_format_step
          rw [if_neg (by simp [hovh]), houtn]
          exact if_pos hlt
        rw [hstep]
        refine cf_inv_select outcome processed n m hovh houtn ?_
        intro x hx hxo g' hg'
        exact lt_of_le_of_lt (cf_inv_bound outcome processed osel g h x hx hxo g' hg') hlt
      · have hstep : check_format_step outcome (osel, g) n = (osel, g) := by
          unfold check_format_step
          rw [if_neg (by simp [hovh]), houtn]
          exact if_neg hlt
        rw [hstep]
        refine cf_inv_append outcome processed osel g n h (Or.inr ?_)
        intro g' hg'
        rw [houtn] at hg'
        injection hg' with hgm
        omega

/-- The invariant propagates through the whole fold. -/
theorem cf_inv_fold (outcome : String → MatchResult)
    (honly : ∀ m, outcome m ≠ .matchNoGroups) (names : List String) :
    ∀ (processed : List String) (acc : Option String × Nat),
      cf_inv outcome processed acc →
      cf_inv outcome (processed ++ names)
        (names.foldl (check_format_step outcome) acc) := by
  induction names with
  | nil =>
    intro processed acc h
    simpa using h
  | cons m ms ih =>
    intro processed acc h
    rw [List.foldl_cons]
    have h' := cf_inv_step outcome honly processed acc m h
    have h'' := ih (processed ++ [m]) _ h'
    simpa [List.append_assoc] using h''

/-- C4 amended: among the registered formats (OVH skipped), *provided every
match exposes captured groups* (no candidate takes the `AttributeError`
branch) and some format matches with at least one group, `check_format`
selects a format of maximal group count, and every format registered
before the selected one matched with strictly fewer groups (so ties go to
registration order).  The exception forced by the counterexample: a
matching format whose match result has no `groups()` method — the nginx
JSON format — is selected unconditionally, without updating the running
group count. -/
theorem C4_check_format_selection (outcome : String → MatchResult)
    (honly : ∀ m, outcome m ≠ .matchNoGroups)
    (n₀ : String) (g₀ : Nat) (hn₀ : n₀ ∈ FORMATS_order) (hn₀o : n₀ ≠ "ovh")
    (hout₀ : outcome n₀ = .groups g₀) (hg₀ : 1 ≤ g₀) :
    ∃ sel g l₁ l₂,
      check_format outcome = some sel ∧ sel ≠ "ovh" ∧
      outcome sel = .groups g ∧ g₀ ≤ g ∧
      FORMATS_order = l₁ ++ sel :: l₂ ∧
      (∀ x ∈ l₁, x ≠ "ovh" → ∀ g', outcome x = .groups g' → g' < g) ∧
      (∀ x ∈ l₂, x ≠ "ovh" → ∀ g', outcome x = .groups g' → g' ≤ g) := by
  have hinv := cf_inv_fold outcome honly FORMATS_order [] (none, 0)
    ⟨rfl, by intro x hx; simp at hx⟩
  rw [List.nil_append] at hinv
  have hcf : check_format outcome =
      (FORMATS_order.foldl (check_format_step outcome) (none, 0)).1 := rfl
  generalize hr : FORMATS_order.foldl (check_format_step outcome) (none, 0) = r at hinv hcf
  obtain ⟨osel, g⟩ := r
  cases osel with
  | none =>
    obtain ⟨hg0, hall⟩ := hinv
    have := hall n₀ hn₀ hn₀o g₀ hout₀
    omega
  | some sel =>
    obtain ⟨l₁, l₂, hp, hso, houts, h₁, h₂⟩ := hinv
    have hbound : g₀ ≤ g := by
      have hn₀' := hn₀
      rw [hp] at hn₀'
      rcases List.mem_append.mp hn₀' with hx | hx
      · exact le_of_lt (h₁ n₀ hx hn₀o g₀ hout₀)
      · rcases List.mem_cons.mp hx with hx | hx
        · rw [hx, houts] at hout₀
          injection hout₀ with hgg
          omega
        · exact h₂ n₀ hx hn₀o g₀ hout₀
    exact ⟨sel, g, l₁, l₂, hcf, hso, houts, hbound, hp, h₁, h₂⟩

/-- C4 counterexample: a probe for which the W3C extended format matches
with 2 captured groups and the nginx JSON format also matches (its match
result has no `groups()`), and no other format matches.  `check_format`
returns `nginx_json`, not the format with the maximal group count.  This
is realizable: with `--w3c-fields "date time"` configured, the line
`"1-1 11:11"` is a valid JSON string and also matches the composed W3C
regex (two captured groups). -/
theorem C4_nginx_json_overrides_max_groups :
    (check_format (fun n =>
        if n = "w3c_extended" then MatchResult.groups 2
        else if n = "nginx_json" then MatchResult.matchNoGroups
        else MatchResult.noMatch) = some "nginx_json") ∧
    (fun n =>
        if n = "w3c_extended" then MatchResult.groups 2
        else if n = "nginx_json" then MatchResult.matchNoGroups
        else MatchResult.noMatch) "w3c_extended" = MatchResult.groups 2 ∧
    "w3c_extended" ∈ FORMATS_order ∧ ("w3c_extended" : String) ≠ "ovh" := by
  refine ⟨by decide, by decide, by decide, by decide⟩

/-- C4 witness: a line matching the common format with 8 groups and the
NCSA extended format with 10 groups; the theorem yields a selection, which
computation pins to `ncsa_extended` with 10 groups. -/
theorem C4_check_format_selection_witness :
    ∃ sel g l₁ l₂,
      check_format (fun n =>
        if n = "common" then MatchResult.groups 8
        else if n = "ncsa_extended" then MatchResult.groups 10
        else MatchResult.noMatch) = some sel ∧ sel ≠ "ovh" ∧
      (fun n =>
        if n = "common" then MatchResult.groups 8
        else if n = "ncsa_extended" then MatchResult.groups 10
        else MatchResult.noMatch) sel = MatchResult.groups g ∧ 10 ≤ g ∧
      FORMATS_order = l₁ ++ sel :: l₂ ∧
      (∀ x ∈ l₁, x ≠ "ovh" → ∀ g', (fun n =>
        if n = "common" then MatchResult.groups 8
        else if n = "ncsa_extended" then MatchResult.groups 10
        else MatchResult.noMatch) x = .groups g' → g' < g) ∧
      (∀ x ∈ l₂, x ≠ "ovh" → ∀ g', (fun n =>
        if n = "common" then MatchResult.groups 8
        else if n = "ncsa_extended" then MatchResult.groups 10
        else MatchResult.noMatch) x = .groups g' → g' ≤ g) := by
  refine C4_check_format_selection _ ?_ "ncsa_extended" 10 (by decide) (by decide)
    (by decide) (by decide)
  intro m
  by_cases h1 : m = "common" <;> by_cases h2 : m = "ncsa_extended" <;>
    simp [h1, h2]

/-! ## C6: the HTTP retry wrapper

Source lines 1832-1893 (`PiwikHttpUrllib._call_wrapper` and
`_parse_http_exception`).  The `except` clause catches exactly
`urllib.error.URLError` (transport errors, including `HTTPError`),
`http.client.HTTPException` (HTTP protocol errors), `ValueError`
(JSON decoding errors) and `socket.timeout`; those are the constructors of
`PyExc`.  An `HTTPError` carries a status code and a readable body
(`hasattr(e, "read")`); the other exceptions carry only a message. -/

/-- The exceptions caught on lines 1852-1857. -/
inductive PyExc where
  | httpError (code : Nat) (msg : String) (body : String)
  | urlError (reason : String)
  | otherExc (msg : String)
  deriving Repr, DecidableEq

/-- Source lines 1879-1893 (`_parse_http_exception`): the extracted
`(code, message)`; the message is decorated with the response body when
the exception has a readable response. -/
def parse_http_exception : PyExc → Option Nat × String
  | .httpError code msg body =>
    (some code, "HTTP Error " ++ toString code ++ " " ++ msg ++ ", response: " ++ body)
  | .urlError reason => (none, reason)
  | .otherExc msg => (none, msg)

/-- The structured error `PiwikHttpBase.Error(message, code)` raised on
exhaustion (source lines 1706-1711 and 1873). -/
structure PiwikError where
  message : String
  code : Option Nat
  deriving Repr, DecidableEq

/-- Result of a `_call_wrapper` run: the returned response or the raised
structured error, the number of attempts made, and the number of
`delay_after_failure` sleeps performed. -/
structure CallResult where
  result : Except PiwikError String
  attempts : Nat
  sleeps : Nat
  deriving Repr

/-- Source lines 1836-1877, one loop pass: `f i` is the outcome of the
`i`-th invocation of the wrapped function (the response it returns or the
caught exception it raises); `remaining` is `max_attempts - errors - 1`,
so the structured error is raised exactly when `errors == max_attempts`
after the increment on line 1869; otherwise the loop sleeps
`delay_after_failure` seconds (line 1877) and retries. -/
def call_wrapper_go (f : Nat → Except PyExc String) (i : Nat) :
    Nat → CallResult
  | 0 =>
    match f i with
    | .ok r => { result := .ok r, attempts := 1, sleeps := 0 }
    | .error e =>
      { result := .error { message := (parse_http_exception e).2,
                           code := (parse_http_exception e).1 },
        attempts := 1, sleeps := 0 }
  | remaining + 1 =>
    match f i with
    | .ok r => { result := .ok r, attempts := 1, sleeps := 0 }
    | .error _ =>
      { result := (call_wrapper_go f (i + 1) remaining).result,
        attempts := (call_wrapper_go f (i + 1) remaining).attempts + 1,
        sleeps := (call_wrapper_go f (i + 1) remaining).sleeps + 1 }

/-- Source lines 1832-1877: the whole `while True` loop, for
`max_attempts ≥ 1` (with `max_attempts ≤ 0` the equality
`errors == max_attempts` on line 1870 is never reached and the source
loops forever, so the model is only meaningful from 1 attempt up). -/
def call_wrapper (f : Nat → Except PyExc String) (max_attempts : Nat) :
    CallResult :=
  call_wrapper_go f 0 (max_attempts - 1)

theorem call_wrapper_go_ok (f : Nat → Except PyExc String) (i rem : Nat)
    (r : String) (h : f i = .ok r) :
    call_wrapper_go f i rem = { result := .ok r, attempts := 1, sleeps := 0 } := by
  cases rem <;> (unfold call_wrapper_go; rw [h])

theorem call_wrapper_go_zero_error (f : Nat → Except PyExc String) (i : Nat)
    (e : PyExc) (h : f i = .error e) :
    call_wrapper_go f i 0 =
      { result := .error { message := (parse_http_exception e).2,
                           code := (parse_http_exception e).1 },
        attempts := 1, sleeps := 0 } := by
  unfold call_wrapper_go
  rw [h]

theorem call_wrapper_go_succ_error (f : Nat → Except PyExc String)
    (i rem : Nat) (e : PyExc) (h : f i = .error e) :
    call_wrapper_go f i (rem + 1) =
      { result := (call_wrapper_go f (i + 1) rem).result,
        attempts := (call_wrapper_go f (i + 1) rem).attempts + 1,
        sleeps := (call_wrapper_go f (i + 1) rem).sleeps + 1 } := by
  conv_lhs => unfold call_wrapper_go
  rw [h]

theorem call_wrapper_go_attempts (f : Nat → Except PyExc String) :
    ∀ (remaining i : Nat),
      1 ≤ (call_wrapper_go f i remaining).attempts ∧
      (call_wrapper_go f i remaining).attempts ≤ remaining + 1 ∧
      (call_wrapper_go f i remaining).sleeps =
        (call_wrapper_go f i remaining).attempts - 1 := by
  intro remaining
  induction remaining with
  | zero =>
    intro i
    cases hfe : f i with
    | ok r => rw [call_wrapper_go_ok f i 0 r hfe]; exact ⟨by simp, by simp, rfl⟩
    | error e =>
      rw [call_wrapper_go_zero_error f i e hfe]
      exact ⟨by simp, by simp, rfl⟩
  | succ rem ih =>
    intro i
    cases hfe : f i with
    | ok r =>
      rw [call_wrapper_go_ok f i (rem + 1) r hfe]
      exact ⟨by simp, by simp, rfl⟩
    | error e =>
      rw [call_wrapper_go_succ_error f i rem e hfe]
      have h := ih (i + 1)
      refine ⟨?_, ?_, ?_⟩
      · show 1 ≤ (call_wrapper_go f (i + 1) rem).attempts + 1
        omega
      · show (call_wrapper_go f (i + 1) rem).attempts + 1 ≤ rem + 1 + 1
        omega
      · show (call_wrapper_go f (i + 1) rem).sleeps + 1 =
          (call_wrapper_go f (i + 1) rem).attempts + 1 - 1
        omega

theorem call_wrapper_go_all_fail (f : Nat → Except PyExc String)
    (es : Nat → PyExc) :
    ∀ (remaining i : Nat), (∀ j, j ≤ remaining → f (i + j) = .error (es (i + j))) →
      (call_wrapper_go f i remaining).attempts = remaining + 1 ∧
      (call_wrapper_go f i remaining).result =
        .error { message := (parse_http_exception (es (i + remaining))).2,
                 code := (parse_http_exception (es (i + remaining))).1 } := by
  intro remaining
  induction remaining with
  | zero =>
    intro i hfail
    have h0 := hfail 0 (Nat.le_refl 0)
    rw [Nat.add_zero] at h0
    rw [Nat.add_zero, call_wrapper_go_zero_error f i _ h0]
    exact ⟨rfl, rfl⟩
  | succ rem ih =>
    intro i hfail
    have h0 := hfail 0 (Nat.zero_le _)
    rw [Nat.add_zero] at h0
    have hrest := ih (i + 1) (by
      intro j hj
      have hx := hfail (j + 1) (by omega)
      rw [show i + (j + 1) = i + 1 + j by omega] at hx
      exact hx)
    rw [call_wrapper_go_succ_error f i rem _ h0]
    refine ⟨?_, ?_⟩
    · show (call_wrapper_go f (i + 1) rem).attempts + 1 = rem + 1 + 1
      rw [hrest.1]
    · show (call_wrapper_go f (i + 1) rem).result = _
      rw [hrest.2]
      rw [show i + 1 + rem = i + (rem + 1) by omega]

/-- C6: a call through the retry wrapper makes at most `max_attempts`
attempts, sleeps `delay_after_failure` once per failure that is retried
(attempts − 1 sleeps), and when all `max_attempts` allowed attempts fail
it raises a structured error whose code is the HTTP status of the last
exception (when it has one) and whose message incorporates the readable
response body of that exception. -/
theorem C6_retry_wrapper (f : Nat → Except PyExc String)
    (max_attempts : Nat) (hmax : 1 ≤ max_attempts) (es : Nat → PyExc) :
    (call_wrapper f max_attempts).attempts ≤ max_attempts ∧
    (call_wrapper f max_attempts).sleeps =
      (call_wrapper f max_attempts).attempts - 1 ∧
    ((∀ j, j < max_attempts → f j = .error (es j)) →
      (call_wrapper f max_attempts).attempts = max_attempts ∧
      (call_wrapper f max_attempts).result =
        .error { message := (parse_http_exception (es (max_attempts - 1))).2,
                 code := (parse_http_exception (es (max_attempts - 1))).1 }) := by
  have hgo := call_wrapper_go_attempts f (max_attempts - 1) 0
  refine ⟨by unfold call_wrapper; omega, hgo.2.2, ?_⟩
  intro hfail
  have := call_wrapper_go_all_fail f es (max_attempts - 1) 0 (by
    intro j hj
    rw [Nat.zero_add]
    exact hfail j (by omega))
  rw [Nat.zero_add] at this
  unfold call_wrapper
  exact ⟨by omega, this.2⟩

/-- C6 witness: three attempts allowed, every attempt raises an
`HTTPError 500` with body `oops`; the wrapper makes exactly 3 attempts,
sleeps twice, and raises a structured error with code 500 and the body in
the message. -/
theorem C6_retry_wrapper_witness :
    (call_wrapper (fun _ => .error (.httpError 500 "Internal Server Error" "oops")) 3).attempts = 3 ∧
    (call_wrapper (fun _ => .error (.httpError 500 "Internal Server Error" "oops")) 3).sleeps = 2 ∧
    (call_wrapper (fun _ => .error (.httpError 500 "Internal Server Error" "oops")) 3).result =
      .error { message := "HTTP Error 500 Internal Server Error, response: oops",
               code := some 500 } := by
  have h := C6_retry_wrapper
    (fun _ => .error (.httpError 500 "Internal Server Error" "oops")) 3
    (by decide) (fun _ => .httpError 500 "Internal Server Error" "oops")
  have h3 := h.2.2 (by intro j _; rfl)
  refine ⟨h3.1, ?_, by rw [h3.2]; rfl⟩
  rw [h.2.1, h3.1]

/-! ## C10: replay-mode query-string parsing

Source lines 2980-2992 (`Parser.parse`, replay branch):
`query_arguments = urllib.parse.parse_qs(hit.query_string)` collects, for
each parameter name, the list of its values in occurrence order, and
`hit.args.update((k, v.pop()) for k, v in query_arguments.items())` binds
each name to `v.pop()` — the last element of its value list.

`urllib.parse.parse_qs` (CPython, `&` separator) is modelled at the
interface level: split the query string on `&`; skip empty fields; split
each field at its first `=` (fields without `=` and fields with an empty
value are skipped since blank values are not kept); replace `+` by a space
and percent-decode name and value (percent-decoding abstracted as the
`unquote` parameter); accumulate values per name in occurrence order. -/

/-- Python `s.split(c)` for a one-character separator, on character
lists. -/
def splitOnCharList (c : Char) : List Char → List (List Char)
  | [] => [[]]
  | x :: xs =>
    if x = c then [] :: splitOnCharList c xs
    else
      match splitOnCharList c xs with
      | [] => [[x]]
      | g :: gs => (x :: g) :: gs

/-- Python `s.split(c, 1)`: split at the first occurrence of `c`;
`none` when `c` does not occur. -/
def splitFirstChar (c : Char) : List Char → Option (List Char × List Char)
  | [] => none
  | x :: xs =>
    if x = c then some ([], xs)
    else
      match splitFirstChar c xs with
      | none => none
      | some (a, b) => some (x :: a, b)

/-- Python `s.replace("+", " ")` (one-character pattern). -/
def plusToSpace (s : String) : String :=
  String.mk (s.data.map (fun ch => if ch = '+' then ' ' else ch))

/-- `urllib.parse.parse_qsl` with default arguments: the `(name, value)`
pairs of the query string in occurrence order. -/
def parse_qsl (unquote : String → String) (qs : String) :
    List (String × String) :=
  (splitOnCharList '&' qs.data).filterMap (fun field =>
    match field with
    | [] => none
    | _ =>
      match splitFirstChar '=' field with
      | none => none
      | some (n, v) =>
        match v with
        | [] => none
        | _ => some (unquote (plusToSpace (String.mk n)),
                     unquote (plusToSpace (String.mk v))))

/-- `urllib.parse.parse_qs`: group the pairs of `parse_qsl` by name,
values in occurrence order. -/
def parse_qs (unquote : String → String) (qs : String) :
    List (String × List String) :=
  (parse_qsl unquote qs).foldl (fun acc kv => PyDict.appendVal acc kv.1 kv.2) []

/-- Source line 2985:
`hit.args.update((k, v.pop()) for k, v in query_arguments.items())` —
each parameter is bound to the last element of its value list (`v.pop()`
removes and returns the last element; the lists produced by `parse_qs`
are never empty). -/
def replay_update_args (args : List (String × String))
    (query_arguments : List (String × List String)) :
    List (String × String) :=
  query_arguments.foldl (fun a kv => PyDict.set a kv.1 (kv.2.getLastD "")) args

/-- The values bound to `key` by the pair list `l`, in occurrence order. -/
def occurrences (l : List (String × String)) (key : String) : List String :=
  l.filterMap (fun p => if p.1 = key then some p.2 else none)

/-- Folding `PyDict.appendVal` over a pair list: the final binding of each
key collects its values in order (on top of whatever the accumulator
already held). -/
theorem appendVal_fold_get (fields : List (String × String)) :
    ∀ (acc : List (String × List String)) (k : String),
      PyDict.get (fields.foldl (fun a kv => PyDict.appendVal a kv.1 kv.2) acc) k =
        match PyDict.get acc k with
        | some vs => some (vs ++ occurrences fields k)
        | none =>
          if occurrences fields k = [] then none else some (occurrences fields k) := by
  induction fields with
  | nil =>
    intro acc k
    cases h : PyDict.get acc k <;> simp [occurrences, h]
  | cons kv rest ih =>
    intro acc k
    rw [List.foldl_cons, ih]
    by_cases hk : kv.1 = k
    · have hov : occurrences (kv :: rest) k = kv.2 :: occurrences rest k := by
        simp [occurrences, List.filterMap_cons, hk]
      rw [hk, PyDict.get_appendVal_self]
      cases h : PyDict.get acc k with
      | some vs => simp [h, hov]
      | none => simp [h, hov]
    · have hov : occurrences (kv :: rest) k = occurrences rest k := by
        simp [occurrences, List.filterMap_cons, hk]
      rw [PyDict.get_appendVal_ne _ _ _ _ hk, hov]

/-- Folding the replay `update` over groups whose keys avoid `k` does not
touch `k`'s binding. -/
theorem replay_update_args_get_notin
    (gs : List (String × List String)) :
    ∀ (args : List (String × String)) (k : String),
      (∀ p ∈ gs, p.1 ≠ k) →
      PyDict.get (replay_update_args args gs) k = PyDict.get args k := by
  induction gs with
  | nil => intro args k _; rfl
  | cons g t ih =>
    intro args k hnot
    show PyDict.get (replay_update_args (PyDict.set args g.1 (g.2.getLastD "")) t) k = _
    rw [ih _ k (fun p hp => hnot p (List.mem_cons_of_mem g hp))]
    exact PyDict.get_set_ne _ _ _ _ (hnot g (List.mem_cons_self g t))

/-- Folding the replay `update` binds a key present exactly once to the
last element of its value list. -/
theorem replay_update_args_get_mem
    (gs : List (String × List String)) :
    ∀ (args : List (String × String)) (k : String) (vs : List String),
      (k, vs) ∈ gs → (∀ p ∈ gs, p.1 = k → p = (k, vs)) →
      ((gs.map Prod.fst).Nodup) →
      PyDict.get (replay_update_args args gs) k = some (vs.getLastD "") := by
  induction gs with
  | nil => intro args k vs hmem; simp at hmem
  | cons g t ih =>
    intro args k vs hmem huniq hnd
    show PyDict.get (replay_update_args (PyDict.set args g.1 (g.2.getLastD "")) t) k = _
    rcases List.mem_cons.mp hmem with hg | hmem'
    · -- the head is the binding of k; no entry of t has key k
      have hg1 : g.1 = k := by rw [← hg]
      have hknot : ∀ p ∈ t, p.1 ≠ k := by
        intro p hp hpk
        have hmm : g.1 ∈ t.map Prod.fst :=
          List.mem_map.mpr ⟨p, hp, by rw [hpk, hg1]⟩
        simp only [List.map_cons, List.nodup_cons] at hnd
        exact hnd.1 hmm
      rw [replay_update_args_get_notin t _ k hknot, ← hg]
      exact PyDict.get_set_self _ _ _
    · refine ih _ k vs hmem' (fun p hp hpk => huniq p (List.mem_cons_of_mem g hp) hpk) ?_
      simp only [List.map_cons, List.nodup_cons] at hnd
      exact hnd.2

/-- Keys of `appendVal`: unchanged when the key is present, the key
appended otherwise. -/
theorem appendVal_keys (d : List (String × List α)) (k : String) (v : α) :
    (PyDict.appendVal d k v).map Prod.fst =
      if PyDict.hasKey d k then d.map Prod.fst else d.map Prod.fst ++ [k] := by
  induction d with
  | nil => simp [PyDict.appendVal, PyDict.hasKey]
  | cons p t ih =>
    by_cases hp : p.1 = k
    · have hb : (p.1 == k) = true := by simp [hp]
      simp [PyDict.appendVal, PyDict.hasKey, hb]
    · have hb : (p.1 == k) = false := by simp [hp]
      simp only [PyDict.appendVal, hb, Bool.false_eq_true, if_false, List.map_cons, ih]
      simp only [PyDict.hasKey, List.any_cons, hb, Bool.false_or]
      by_cases ht : PyDict.hasKey t k
      · simp [PyDict.hasKey] at ht
        simp [ht]
      · simp [PyDict.hasKey] at ht
        simp [ht]

/-- `appendVal` preserves key uniqueness. -/
theorem appendVal_keys_nodup (d : List (String × List α)) (k : String) (v : α)
    (h : (d.map Prod.fst).Nodup) :
    ((PyDict.appendVal d k v).map Prod.fst).Nodup := by
  rw [appendVal_keys]
  by_cases hk : PyDict.hasKey d k
  · rw [if_pos hk]; exact h
  · rw [if_neg hk]
    have hnot : k ∉ d.map Prod.fst := by
      intro hmem
      obtain ⟨p, hp, hpk⟩ := List.mem_map.mp hmem
      have : PyDict.hasKey d k = true := by
        simp only [PyDict.hasKey, List.any_eq_true]
        exact ⟨p, hp, by simp [hpk]⟩
      exact hk this
    simp [List.nodup_append, h, hnot]

/-- The dict built by `parse_qs` has pairwise distinct keys. -/
theorem parse_qs_keys_nodup (unquote : String → String) (qs : String) :
    ((parse_qs unquote qs).map Prod.fst).Nodup := by
  rw [parse_qs]
  generalize parse_qsl unquote qs = fields
  have hgen : ∀ (fields : List (String × String))
      (acc : List (String × List String)), (acc.map Prod.fst).Nodup →
      ((fields.foldl (fun a kv => PyDict.appendVal a kv.1 kv.2) acc).map
        Prod.fst).Nodup := by
    intro fields
    induction fields with
    | nil => intro acc h; exact h
    | cons kv rest ih =>
      intro acc h
      rw [List.foldl_cons]
      exact ih _ (appendVal_keys_nodup acc kv.1 kv.2 h)
  exact hgen fields [] (by simp)

/-- In a dict with pairwise distinct keys, a member is the unique entry
with its key. -/
theorem nodup_keys_unique (d : List (String × α))
    (h : (d.map Prod.fst).Nodup) (k : String) (v : α) (hm : (k, v) ∈ d) :
    ∀ p ∈ d, p.1 = k → p = (k, v) := by
  induction d with
  | nil => intro p hp; simp at hp
  | cons q t ih =>
    simp only [List.map_cons, List.nodup_cons] at h
    intro p hp hpk
    rcases List.mem_cons.mp hp with hpq | hpt
    · rcases List.mem_cons.mp hm with hmq | hmt
      · rw [hpq, ← hmq]
      · exfalso
        apply h.1
        have hq1 : q.1 = k := by rw [← hpq, hpk]
        rw [hq1]
        exact List.mem_map.mpr ⟨(k, v), hmt, rfl⟩
    · rcases List.mem_cons.mp hm with hmq | hmt
      · exfalso
        apply h.1
        have hq1 : q.1 = k := by rw [← hmq]
        rw [hq1]
        exact List.mem_map.mpr ⟨p, hpt, hpk⟩
      · exact ih h.2 hmt p hpt hpk

/-- C10: in replay mode the Hit's `args` bind each query parameter to the
value of its *last* occurrence in the query string (each value list
produced by `parse_qs` is reduced by `v.pop()`); a parameter that does not
occur leaves the pre-existing binding untouched. -/
theorem C10_replay_last_value (unquote : String → String) (qs : String)
    (args : List (String × String)) (key : String) :
    (occurrences (parse_qsl unquote qs) key ≠ [] →
      PyDict.get (replay_update_args args (parse_qs unquote qs)) key =
        some ((occurrences (parse_qsl unquote qs) key).getLastD "")) ∧
    (occurrences (parse_qsl unquote qs) key = [] →
      PyDict.get (replay_update_args args (parse_qs unquote qs)) key =
        PyDict.get args key) := by
  have hqs : PyDict.get (parse_qs unquote qs) key =
      if occurrences (parse_qsl unquote qs) key = [] then none
      else some (occurrences (parse_qsl unquote qs) key) := by
    have h := appendVal_fold_get (parse_qsl unquote qs) [] key
    rw [parse_qs]
    rw [h]
    rfl
  constructor
  · intro hne
    rw [if_neg hne] at hqs
    have hmem := PyDict.get_some_mem _ _ _ hqs
    have hnd := parse_qs_keys_nodup unquote qs
    exact replay_update_args_get_mem (parse_qs unquote qs) args key
      (occurrences (parse_qsl unquote qs) key) hmem
      (nodup_keys_unique _ hnd _ _ hmem) hnd
  · intro heq
    rw [if_pos heq] at hqs
    exact replay_update_args_get_notin _ _ _ (PyDict.get_none_not_mem _ _ hqs)

/-- C10 witness: query string `a=1&a=2&b=3` — parameter `a` occurs twice
and is bound to `2`, its last occurrence (`unquote` instantiated with the
identity, enough for undecorated values). -/
theorem C10_replay_last_value_witness :
    occurrences (parse_qsl id "a=1&a=2&b=3") "a" ≠ [] ∧
    PyDict.get (replay_update_args [] (parse_qs id "a=1&a=2&b=3")) "a" =
      some "2" := by
  refine ⟨by decide, ?_⟩
  have h := (C10_replay_last_value id "a=1&a=2&b=3" [] "a").1 (by decide)
  rw [h]
  decide

/-! ## C9: PHP deep-array conversion

Source lines 1638-1703 (`UrlHelper.convert_array_args`,
`_convert_dicts_to_arrays`, `_has_contiguous_int_keys`,
`_convert_dict_to_array`).  We first need Python's `str(i)` on the
naturals, as a structurally recursive (hence kernel-computable) decimal
printer, together with its injectivity. -/

/-- Decimal digit character. -/
def digitChar10 (n : Nat) : Char :=
  match n with
  | 0 => '0' | 1 => '1' | 2 => '2' | 3 => '3' | 4 => '4'
  | 5 => '5' | 6 => '6' | 7 => '7' | 8 => '8' | _ => '9'

/-- Value of a decimal digit character (10 for non-digits). -/
def digitVal10 (c : Char) : Nat :=
  if c = '0' then 0 else if c = '1' then 1 else if c = '2' then 2
  else if c = '3' then 3 else if c = '4' then 4 else if c = '5' then 5
  else if c = '6' then 6 else if c = '7' then 7 else if c = '8' then 8
  else if c = '9' then 9 else 10

/-- Big-endian decimal digits of `n`, with explicit fuel (structural, so
the kernel can evaluate it). -/
def toDecimalAux : Nat → Nat → List Char
  | 0, _ => []
  | fuel + 1, n =>
    if n < 10 then [digitChar10 n]
    else toDecimalAux fuel (n / 10) ++ [digitChar10 (n % 10)]

/-- Python `str(i)` for a natural number. -/
def str_of_nat (n : Nat) : String := String.mk (toDecimalAux (n + 1) n)

/-- Decimal value of a digit string (big-endian). -/
def decVal (l : List Char) : Nat :=
  l.foldl (fun acc c => 10 * acc + digitVal10 c) 0

theorem decVal_append_singleton (l : List Char) (c : Char) :
    decVal (l ++ [c]) = 10 * decVal l + digitVal10 c := by
  simp [decVal, List.foldl_append]

theorem digitVal10_digitChar10 (n : Nat) (h : n < 10) :
    digitVal10 (digitChar10 n) = n := by
  interval_cases n <;> rfl

theorem toDecimalAux_val : ∀ (fuel n : Nat), n < fuel →
    decVal (toDecimalAux fuel n) = n := by
  intro fuel
  induction fuel with
  | zero => intro n h; omega
  | succ fuel ih =>
    intro n h
    by_cases h10 : n < 10
    · simp only [toDecimalAux, h10, if_true]
      simp [decVal, digitVal10_digitChar10 n h10]
    · simp only [toDecimalAux, h10, if_false]
      rw [decVal_append_singleton,
        digitVal10_digitChar10 (n % 10) (Nat.mod_lt n (by omega)),
        ih (n / 10) (by omega)]
      omega

theorem str_of_nat_inj (m n : Nat) (h : str_of_nat m = str_of_nat n) :
    m = n := by
  have hd : toDecimalAux (m + 1) m = toDecimalAux (n + 1) n :=
    congrArg String.data h
  have hm := toDecimalAux_val (m + 1) m (by omega)
  have hn := toDecimalAux_val (n + 1) n (by omega)
  rw [hd, hn] at hm
  omega

theorem digitChar10_ne_brackets (n : Nat) :
    digitChar10 n ≠ '[' ∧ digitChar10 n ≠ ']' := by
  unfold digitChar10
  split <;> exact ⟨by decide, by decide⟩

theorem toDecimalAux_no_brackets : ∀ (fuel n : Nat), ∀ c ∈ toDecimalAux fuel n,
    c ≠ '[' ∧ c ≠ ']' := by
  intro fuel
  induction fuel with
  | zero => intro n c hc; simp [toDecimalAux] at hc
  | succ fuel ih =>
    intro n c hc
    by_cases h10 : n < 10
    · simp only [toDecimalAux, h10, if_true, List.mem_singleton] at hc
      rw [hc]; exact digitChar10_ne_brackets n
    · simp only [toDecimalAux, h10, if_false, List.mem_append,
        List.mem_singleton] at hc
      rcases hc with hc | hc
      · exact ih (n / 10) c hc
      · rw [hc]; exact digitChar10_ne_brackets (n % 10)

theorem str_of_nat_no_brackets (n : Nat) :
    ¬ (str_of_nat n).data.contains '[' ∧ ¬ (str_of_nat n).data.contains ']' := by
  constructor <;>
    · intro hmem
      rw [List.contains_iff_exists_mem_beq] at hmem
      obtain ⟨c, hc, hbeq⟩ := hmem
      rcases toDecimalAux_no_brackets (n + 1) n c (by simpa using hc) with ⟨h1, h2⟩
      rw [beq_iff_eq] at hbeq
      subst hbeq
      simp_all

theorem str_of_nat_ne_empty (n : Nat) : str_of_nat n ≠ "" := by
  intro h
  have hd : toDecimalAux (n + 1) n = [] := congrArg String.data h
  by_cases h10 : n < 10 <;> simp [toDecimalAux, h10] at hd

/-- The nested structures handled by `UrlHelper.convert_array_args`:
strings, string-keyed dicts (association lists in insertion order, unique
keys) and lists.  The same type serves for the nested argument structures
of the spec (maps/lists/string leaves) and for the values built by the
source. -/
inductive DeepVal where
  | str (s : String)
  | map (entries : List (String × DeepVal))
  | arr (elems : List DeepVal)
  deriving Repr

/-- Python `i.rstrip("]")`: drop every trailing `]`. -/
def rstripBrackets (s : String) : String :=
  String.mk ((s.data.reverse.dropWhile (fun c => c = ']')).reverse)

/-- Source lines 1648-1652: `indices = key.split("[")`, each entry
`rstrip("]")`-ed.  (The surrounding `if "[" in key` keeps the raw split
when there is no bracket; the rstrip is only applied in the bracket
branch, which is the only place this function is used.) -/
def indicesOf (key : String) : List String :=
  (splitOnCharList '[' key.data).map (fun cs => rstripBrackets (String.mk cs))

/-- Source lines 1656-1671: navigate `final_args` along `indices`,
creating lists/dicts as needed, and set the value in the final container.
The loop body (lines 1657-1665) coerces `element[idx]` to a list when the
next index is empty and to a dict otherwise, reusing an existing container
of the right type; the epilogue (lines 1668-1671) appends when the last
index is empty and assigns otherwise.  Navigating into a non-dict (which
raises `TypeError` in Python) and appending to a dict (`AttributeError`)
are modelled as no-ops; they are unreachable for the inputs considered
here. -/
def assign : DeepVal → List String → String → DeepVal
  | container, [], _ => container
  | container, [last], value =>
    match container with
    | .arr l => if last = "" then .arr (l ++ [.str value]) else .arr l
    | .map d => if last = "" then .map d else .map (PyDict.set d last (.str value))
    | .str s => .str s
  | container, idx :: next :: rest, value =>
    match container with
    | .map d =>
      let child : DeepVal :=
        if next = "" then
          match PyDict.get d idx with
          | some (.arr l) => .arr l
          | _ => .arr []
        else
          match PyDict.get d idx with
          | some (.map m) => .map m
          | _ => .map []
      .map (PyDict.set d idx (assign child (next :: rest) value))
    | other => other

/-- Source lines 1646-1673: the loop of `convert_array_args` over
`args.items()`, building `final_args`.  Argument values are strings here
(the flattened leaves the claim quantifies over). -/
def convert_array_args_fold (args : List (String × String)) :
    List (String × DeepVal) :=
  args.foldl
    (fun acc kv =>
      if kv.1.data.contains '[' then
        match assign (.map acc) (indicesOf kv.1) kv.2 with
        | .map d => d
        | _ => acc
      else PyDict.set acc kv.1 (.str kv.2))
    []

/-- Source lines 1691-1696 (`_has_contiguous_int_keys`): every index
`0 ≤ i < len(d)` appears (as `str(i)`) among the keys. -/
def has_contiguous_int_keys (d : List (String × DeepVal)) : Bool :=
  (List.range d.length).all (fun i => PyDict.hasKey d (str_of_nat i))

/-- Source lines 1698-1703 (`_convert_dict_to_array`): `[d[str(i)] for i
in range(len(d))]` (the default is unreachable when the keys are
contiguous). -/
def convert_dict_to_array (d : List (String × DeepVal)) : List DeepVal :=
  (List.range d.length).map (fun i => (PyDict.get d (str_of_nat i)).getD (.str ""))

/-- Source lines 1677-1689 (`_convert_dicts_to_arrays`): replace every
dict value with contiguous integer keys by the array of its values, and
recurse into the other dict values.  String and list values are left
untouched (in particular nothing *inside* a converted array is ever
converted). -/
def convert_dicts_to_arrays : List (String × DeepVal) → List (String × DeepVal)
  | [] => []
  | (k, DeepVal.map m) :: t =>
    (if has_contiguous_int_keys m then (k, DeepVal.arr (convert_dict_to_array m))
     else (k, DeepVal.map (convert_dicts_to_arrays m))) :: convert_dicts_to_arrays t
  | (k, v) :: t => (k, v) :: convert_dicts_to_arrays t

/-- Source lines 1639-1675: `convert_array_args` — build `final_args` from
the flat argument dict, then convert contiguous-integer dicts to arrays. -/
def convert_array_args (args : List (String × String)) :
    List (String × DeepVal) :=
  convert_dicts_to_arrays (convert_array_args_fold args)

/-! ### The spec-side flattening (refinement direction)

The claim inverts `convert_array_args` against the PHP-style flattening the
spec describes: a nested structure of string-keyed maps and lists with
string leaves is flattened into keys of the form `a[b][c]`.  The
definitions below follow the spec's words; they are the comparison
refinement, not source code.  List elements are encoded with their
explicit contiguous indices `[0] … [n-1]` (Python's `str(i)`): the
claim's empty-bracket append encoding `a[]` gives several elements of one
list the *same* flattened key, which a Python dict (the input of
`convert_array_args`) cannot hold — see the counterexample theorem. -/

/-! Path segments (key sequence) of every leaf of a value, paired with the
leaf string, in order: maps contribute their keys, lists their decimal
indices. -/
mutual
def flattenSegs : DeepVal → List (List String × String)
  | .str s => [([], s)]
  | .map m => flattenMap m
  | .arr l => flattenArr 0 l

def flattenMap : List (String × DeepVal) → List (List String × String)
  | [] => []
  | p :: t =>
    (flattenSegs p.2).map (fun r => (p.1 :: r.1, r.2)) ++ flattenMap t

def flattenArr : Nat → List DeepVal → List (List String × String)
  | _, [] => []
  | i, v :: t =>
    (flattenSegs v).map (fun r => (str_of_nat i :: r.1, r.2)) ++ flattenArr (i + 1) t
end

/-- Bracketed tail segments of a PHP-style key: `[b, c] ↦ "[b][c]"`. -/
def encodeTail : List String → String
  | [] => ""
  | s :: t => "[" ++ s ++ "]" ++ encodeTail t

/-- Encode a nonempty segment path as a PHP-style key:
`[a, b, c] ↦ "a[b][c]"`. -/
def encodeKey : List String → String
  | [] => ""
  | k :: rest => k ++ encodeTail rest

/-- Flatten a top-level map (the tracker argument dict): each leaf becomes
one `(encoded key, leaf)` pair. -/
def flatten : List (String × DeepVal) → List (String × String)
  | [] => []
  | p :: t =>
    (flattenSegs p.2).map (fun r => (encodeKey (p.1 :: r.1), r.2)) ++ flatten t

/-! No list occurs in the value (not even the value itself). -/
mutual
def noArr : DeepVal → Bool
  | .str _ => true
  | .arr _ => false
  | .map m => noArrEntries m

def noArrEntries : List (String × DeepVal) → Bool
  | [] => true
  | p :: t => noArr p.2 && noArrEntries t
end

/-- A usable map key: nonempty and bracket-free. -/
def keyOK (k : String) : Bool :=
  !(k == "") && !k.data.contains '[' && !k.data.contains ']'

/-- Pairwise distinct strings. -/
def nodupStr : List String → Bool
  | [] => true
  | x :: t => !t.contains x && nodupStr t

/-! Well-formedness under which the round trip holds: maps are nonempty
with distinct, nonempty, bracket-free keys and never keyed by exactly the
contiguous integers `0 … n-1`; lists are nonempty and contain no nested
list anywhere below them. -/
mutual
def good : DeepVal → Bool
  | .str _ => true
  | .map m =>
    !m.isEmpty && (m.map Prod.fst).all keyOK && nodupStr (m.map Prod.fst) &&
      !has_contiguous_int_keys m && goodEntries m
  | .arr l => !l.isEmpty && goodElems l

def goodEntries : List (String × DeepVal) → Bool
  | [] => true
  | p :: t => good p.2 && goodEntries t

def goodElems : List DeepVal → Bool
  | [] => true
  | v :: t => good v && noArr v && goodElems t
end

/-! The image of a value under the rebuilding phase of
`convert_array_args` (before `_convert_dicts_to_arrays`): lists appear as
dicts keyed by their decimal indices in order. -/
mutual
def reb : DeepVal → DeepVal
  | .str s => .str s
  | .map m => .map (rebEntries m)
  | .arr l => .map (rebArr 0 l)

def rebEntries : List (String × DeepVal) → List (String × DeepVal)
  | [] => []
  | p :: t => (p.1, reb p.2) :: rebEntries t

def rebArr : Nat → List DeepVal → List (String × DeepVal)
  | _, [] => []
  | i, v :: t => (str_of_nat i, reb v) :: rebArr (i + 1) t
end

/-- Top-level image: the outer dict keeps its keys, values are rebuilt. -/
def rebTop : List (String × DeepVal) → List (String × DeepVal)
  | [] => []
  | p :: t => (p.1, reb p.2) :: rebTop t

/-! ### Decoding the encoded keys -/

theorem splitOnCharList_ne_nil (c : Char) (l : List Char) :
    splitOnCharList c l ≠ [] := by
  cases l with
  | nil => simp [splitOnCharList]
  | cons x xs =>
    by_cases hx : x = c
    · simp [splitOnCharList, hx]
    · simp only [splitOnCharList, hx, if_false]
      cases h : splitOnCharList c xs <;> simp

theorem splitOnCharList_not_mem (c : Char) (l : List Char) (h : c ∉ l) :
    splitOnCharList c l = [l] := by
  induction l with
  | nil => rfl
  | cons x xs ih =>
    have hx : ¬ x = c := by
      intro hxc; exact h (by rw [hxc]; exact List.mem_cons_self c xs)
    have hxs : c ∉ xs := fun hc => h (List.mem_cons_of_mem x hc)
    simp only [splitOnCharList, hx, if_false, ih hxs]

theorem splitOnCharList_append (c : Char) (l₁ l₂ : List Char) (h : c ∉ l₁) :
    splitOnCharList c (l₁ ++ c :: l₂) = l₁ :: splitOnCharList c l₂ := by
  induction l₁ with
  | nil => simp [splitOnCharList]
  | cons x xs ih =>
    have hx : ¬ x = c := by
      intro hxc; exact h (by rw [hxc]; exact List.mem_cons_self c xs)
    have hxs : c ∉ xs := fun hc => h (List.mem_cons_of_mem x hc)
    simp only [List.cons_append, splitOnCharList, hx, if_false, List.append_eq]
    rw [ih hxs]
theorem dropWhile_bracket_of_not_mem (l : List Char) (h : ']' ∉ l) :
    l.dropWhile (fun c => c = ']') = l := by
  cases l with
  | nil => rfl
  | cons x xs =>
    have hx : ¬ x = ']' := by
      intro hxc; exact h (by rw [hxc]; exact List.mem_cons_self ']' xs)
    simp [List.dropWhile_cons, hx]

theorem rstripBrackets_no_bracket (s : String) (h : ']' ∉ s.data) :
    rstripBrackets s = s := by
  unfold rstripBrackets
  rw [dropWhile_bracket_of_not_mem _ (fun hm => h (List.mem_reverse.mp hm)),
    List.reverse_reverse]

theorem rstripBrackets_append_bracket (s : String) (h : ']' ∉ s.data) :
    rstripBrackets (String.mk (s.data ++ [']'])) = s := by
  unfold rstripBrackets
  have h1 : (String.mk (s.data ++ [']'])).data.reverse = ']' :: s.data.reverse := by
    simp
  rw [h1]
  have h2 : (']' :: s.data.reverse).dropWhile (fun c => c = ']') =
      s.data.reverse.dropWhile (fun c => c = ']') := by
    simp [List.dropWhile_cons]
  rw [h2, dropWhile_bracket_of_not_mem _ (fun hm => h (List.mem_reverse.mp hm)),
    List.reverse_reverse]

theorem splitOnCharList_encodeTail (rest : List String)
    (hrest : ∀ s ∈ rest, '[' ∉ s.data) :
    ∀ (l : List Char), '[' ∉ l →
      splitOnCharList '[' (l ++ (encodeTail rest).data) =
        l :: rest.map (fun s => s.data ++ [']']) := by
  induction rest with
  | nil =>
    intro l hl
    show splitOnCharList '[' (l ++ ("" : String).data) = [l]
    simpa using splitOnCharList_not_mem '[' l hl
  | cons s t ih =>
    intro l hl
    have hdata : (encodeTail (s :: t)).data =
        '[' :: ((s.data ++ [']']) ++ (encodeTail t).data) := by
      show ("[" ++ s ++ "]" ++ encodeTail t).data = _
      simp [String.data_append]
    rw [hdata]
    rw [splitOnCharList_append '[' l _ hl]
    have hs : '[' ∉ s.data ++ [']'] := by
      intro hmem
      rcases List.mem_append.mp hmem with hmem | hmem
      · exact hrest s (List.mem_cons_self s t) hmem
      · simp at hmem
    rw [ih (fun x hx => hrest x (List.mem_cons_of_mem s hx)) (s.data ++ [']']) hs]
    simp

theorem map_rstrip_bracket (rest : List String)
    (h : ∀ s ∈ rest, ']' ∉ s.data) :
    (rest.map (fun s => s.data ++ [']'])).map
      (fun cs => rstripBrackets (String.mk cs)) = rest := by
  induction rest with
  | nil => rfl
  | cons s t ih =>
    simp only [List.map_cons]
    rw [rstripBrackets_append_bracket s (h s (List.mem_cons_self s t))]
    rw [ih (fun x hx => h x (List.mem_cons_of_mem s hx))]

theorem indicesOf_encodeKey (k : String) (rest : List String)
    (hk : '[' ∉ k.data ∧ ']' ∉ k.data)
    (hrest : ∀ s ∈ rest, '[' ∉ s.data ∧ ']' ∉ s.data) :
    indicesOf (encodeKey (k :: rest)) = k :: rest := by
  unfold indicesOf
  have hdata : (encodeKey (k :: rest)).data = k.data ++ (encodeTail rest).data := by
    show (k ++ encodeTail rest).data = _
    simp [String.data_append]
  rw [hdata, splitOnCharList_encodeTail rest (fun s hs => (hrest s hs).1) k.data hk.1]
  rw [List.map_cons]
  have hk' : rstripBrackets (String.mk k.data) = k := by
    have he : String.mk k.data = k := rfl
    rw [he]
    exact rstripBrackets_no_bracket k hk.2
  rw [hk', map_rstrip_bracket rest (fun s hs => (hrest s hs).2)]
theorem contains_false_of_not_mem {α : Type} [BEq α] [LawfulBEq α]
    (l : List α) (c : α) (h : c ∉ l) :
    l.contains c = false := by
  rw [Bool.eq_false_iff]
  intro hc
  rw [List.contains_iff_exists_mem_beq] at hc
  obtain ⟨x, hx, hbeq⟩ := hc
  rw [beq_iff_eq] at hbeq
  exact h (hbeq ▸ hx)

theorem contains_true_of_mem {α : Type} [BEq α] [LawfulBEq α]
    (l : List α) (c : α) (h : c ∈ l) :
    l.contains c = true := by
  simp only [List.contains_iff_exists_mem_beq, beq_iff_eq]
  exact ⟨c, h, rfl⟩

theorem encodeKey_contains_bracket (k : String) (rest : List String)
    (hk : '[' ∉ k.data) :
    (encodeKey (k :: rest)).data.contains '[' = !rest.isEmpty := by
  have hdata : (encodeKey (k :: rest)).data = k.data ++ (encodeTail rest).data := by
    show (k ++ encodeTail rest).data = _
    simp [String.data_append]
  rw [hdata]
  cases rest with
  | nil =>
    have hmem : '[' ∉ k.data ++ ("" : String).data := by simpa using hk
    show (k.data ++ ("" : String).data).contains '[' = false
    exact contains_false_of_not_mem _ _ hmem
  | cons s t =>
    have hdata2 : (encodeTail (s :: t)).data =
        '[' :: ((s.data ++ [']']) ++ (encodeTail t).data) := by
      show ("[" ++ s ++ "]" ++ encodeTail t).data = _
      simp [String.data_append]
    rw [hdata2]
    have hmem : '[' ∈ k.data ++ '[' :: ((s.data ++ [']']) ++ (encodeTail t).data) := by
      simp
    show (k.data ++ '[' :: ((s.data ++ [']']) ++ (encodeTail t).data)).contains '[' = true
    exact contains_true_of_mem _ _ hmem

/-! ### Rebuilding: the assign fold -/

/-- Fold the assignment step of `convert_array_args` over already-split
keys (segment paths). -/
def foldAssign (c : DeepVal) (pairs : List (List String × String)) : DeepVal :=
  pairs.foldl (fun c q => assign c q.1 q.2) c

/-- The dict the loop body navigates into at a non-final segment whose
successor is nonempty (source lines 1660-1663, dict case). -/
def childMap (d : List (String × DeepVal)) (p : String) :
    List (String × DeepVal) :=
  match PyDict.get d p with
  | some (.map m) => m
  | _ => []

theorem PyDict.set_set (d : List (String × α)) (k : String) (v w : α) :
    PyDict.set (PyDict.set d k v) k w = PyDict.set d k w := by
  induction d with
  | nil => simp [PyDict.set]
  | cons p t ih =>
    by_cases hp : p.1 = k
    · simp [PyDict.set, hp]
    · have hb : (p.1 == k) = false := by simp [hp]
      simp [PyDict.set, hb, ih]

theorem PyDict.set_fresh_append (d : List (String × α)) (k : String) (v : α)
    (h : PyDict.get d k = none) : PyDict.set d k v = d ++ [(k, v)] := by
  induction d with
  | nil => simp [PyDict.set]
  | cons p t ih =>
    by_cases hp : p.1 = k
    · simp [PyDict.get, List.find?_cons, hp] at h
    · have hb : (p.1 == k) = false := by simp [hp]
      simp only [PyDict.get, List.find?_cons, hb] at h
      simp [PyDict.set, hb, ih h]

theorem PyDict.get_append_of_none (d e : List (String × α)) (k : String)
    (h : PyDict.get d k = none) :
    PyDict.get (d ++ e) k = PyDict.get e k := by
  induction d with
  | nil => simp
  | cons p t ih =>
    by_cases hp : p.1 = k
    · simp [PyDict.get, List.find?_cons, hp] at h
    · have hb : (p.1 == k) = false := by simp [hp]
      simp only [PyDict.get, List.find?_cons, hb] at h
      simp only [List.cons_append, PyDict.get, List.find?_cons, hb]
      exact ih h

theorem PyDict.get_singleton_ne (k k' : String) (v : α) (h : k' ≠ k) :
    PyDict.get [(k', v)] k = none := by
  simp [PyDict.get, List.find?_cons, h]

/-- Source lines 1657-1665, one navigation step into a dict, when the next
index is nonempty: the existing child is reused when it is a dict and
replaced by a fresh dict otherwise. -/
theorem assign_cons_cons (d : List (String × DeepVal)) (p next : String)
    (rest : List String) (v : String) (hnext : next ≠ "") :
    assign (.map d) (p :: next :: rest) v =
      .map (PyDict.set d p (assign (.map (childMap d p)) (next :: rest) v)) := by
  show DeepVal.map (PyDict.set d p (assign _ (next :: rest) v)) = _
  rw [if_neg hnext]
  unfold childMap
  cases hg : PyDict.get d p with
  | none => rfl
  | some w => cases w <;> rfl

/-- `assign` on a dict with a nonempty path returns a dict. -/
theorem assign_map_is_map (d : List (String × DeepVal)) (segs : List String)
    (v : String) (h : segs ≠ []) :
    ∃ d', assign (.map d) segs v = .map d' := by
  match segs with
  | [last] =>
    by_cases hl : last = ""
    · exact ⟨d, by simp [assign, hl]⟩
    · exact ⟨PyDict.set d last (.str v), by simp [assign, hl]⟩
  | p :: next :: rest =>
    by_cases hn : next = ""
    · refine ⟨PyDict.set d p (assign (match PyDict.get d p with
        | some (.arr l) => DeepVal.arr l
        | _ => DeepVal.arr []) (next :: rest) v), ?_⟩
      show DeepVal.map _ = _
      rw [if_pos hn]
    · exact ⟨PyDict.set d p (assign (.map (childMap d p)) (next :: rest) v),
        assign_cons_cons d p next rest v hn⟩

/-- Lifting a common leading segment out of an assign fold: folding pairs
whose paths all start with `p` (and continue with a nonempty segment)
over a dict equals folding the un-prefixed pairs into the child dict at
`p`. -/
theorem foldAssign_lift :
    ∀ (pairs : List (List String × String)) (q : List String × String)
      (p : String) (d : List (String × DeepVal)),
      (∀ r ∈ q :: pairs, r.1 ≠ [] ∧ r.1.head? ≠ some "") →
      foldAssign (.map d) ((q :: pairs).map (fun r => (p :: r.1, r.2))) =
        .map (PyDict.set d p (foldAssign (.map (childMap d p)) (q :: pairs))) := by
  intro pairs
  induction pairs with
  | nil =>
    intro q p d hcond
    obtain ⟨hq1, hq2⟩ := hcond q (List.mem_cons_self q _)
    obtain ⟨next, r', hq⟩ : ∃ next r', q.1 = next :: r' := by
      cases hqq : q.1 with
      | nil => exact absurd hqq hq1
      | cons a b => exact ⟨a, b, rfl⟩
    have hnext : next ≠ "" := by
      intro hne
      apply hq2
      rw [hq, hne]
      rfl
    show foldAssign (assign (.map d) (p :: q.1) q.2) [] =
      .map (PyDict.set d p (foldAssign (assign (.map (childMap d p)) q.1 q.2) []))
    rw [hq, assign_cons_cons d p next r' q.2 hnext]
    rfl
  | cons q₂ rest ih =>
    intro q p d hcond
    obtain ⟨hq1, hq2⟩ := hcond q (List.mem_cons_self q _)
    obtain ⟨next, r', hq⟩ : ∃ next r', q.1 = next :: r' := by
      cases hqq : q.1 with
      | nil => exact absurd hqq hq1
      | cons a b => exact ⟨a, b, rfl⟩
    have hnext : next ≠ "" := by
      intro hne
      apply hq2
      rw [hq, hne]
      rfl
    show foldAssign (assign (.map d) (p :: q.1) q.2)
        ((q₂ :: rest).map (fun r => (p :: r.1, r.2))) =
      .map (PyDict.set d p
        (foldAssign (assign (.map (childMap d p)) q.1 q.2) (q₂ :: rest)))
    rw [hq, assign_cons_cons d p next r' q.2 hnext]
    obtain ⟨m₁, hm₁⟩ :=
      assign_map_is_map (childMap d p) (next :: r') q.2 (by simp)
    rw [hm₁]
    rw [ih q₂ p (PyDict.set d p (.map m₁))
      (fun r hr => hcond r (List.mem_cons_of_mem q hr))]
    have hchild : childMap (PyDict.set d p (.map m₁)) p = m₁ := by
      unfold childMap
      rw [PyDict.get_set_self]
    rw [hchild, PyDict.set_set]

theorem not_mem_of_contains_false {α : Type} [BEq α] [LawfulBEq α]
    (l : List α) (c : α) (h : l.contains c = false) : c ∉ l := by
  intro hmem
  rw [contains_true_of_mem l c hmem] at h
  cases h

theorem keyOK_ne_empty (k : String) (h : keyOK k = true) : k ≠ "" := by
  simp only [keyOK, Bool.and_eq_true, Bool.not_eq_true'] at h
  intro hk
  rw [hk] at h
  simp at h

theorem keyOK_no_brackets (k : String) (h : keyOK k = true) :
    '[' ∉ k.data ∧ ']' ∉ k.data := by
  simp only [keyOK, Bool.and_eq_true, Bool.not_eq_true'] at h
  exact ⟨not_mem_of_contains_false _ _ h.1.2, not_mem_of_contains_false _ _ h.2⟩

/-- Every path produced by flattening a map with usable keys is nonempty
and starts with a nonempty segment. -/
theorem paths_ok_map (m : List (String × DeepVal))
    (hkeys : ∀ q ∈ m, keyOK q.1 = true) :
    ∀ r ∈ flattenMap m, r.1 ≠ [] ∧ r.1.head? ≠ some "" := by
  induction m with
  | nil => intro r hr; simp [flattenMap] at hr
  | cons q t ih =>
    intro r hr
    rw [show flattenMap (q :: t) =
      (flattenSegs q.2).map (fun r => (q.1 :: r.1, r.2)) ++ flattenMap t
      from by simp [flattenMap]] at hr
    rcases List.mem_append.mp hr with hr | hr
    · obtain ⟨r', _, hrr⟩ := List.mem_map.mp hr
      rw [← hrr]
      refine ⟨by simp, ?_⟩
      simp only [List.head?_cons, ne_eq, Option.some.injEq]
      exact keyOK_ne_empty q.1 (hkeys q (List.mem_cons_self q t))
    · exact ih (fun x hx => hkeys x (List.mem_cons_of_mem q hx)) r hr

/-- Every path produced by flattening a list is nonempty and starts with a
decimal index (never the empty segment). -/
theorem paths_ok_arr (l : List DeepVal) :
    ∀ (i : Nat), ∀ r ∈ flattenArr i l, r.1 ≠ [] ∧ r.1.head? ≠ some "" := by
  induction l with
  | nil => intro i r hr; simp [flattenArr] at hr
  | cons v t ih =>
    intro i r hr
    rw [show flattenArr i (v :: t) =
      (flattenSegs v).map (fun r => (str_of_nat i :: r.1, r.2)) ++ flattenArr (i + 1) t
      from by simp [flattenArr]] at hr
    rcases List.mem_append.mp hr with hr | hr
    · obtain ⟨r', _, hrr⟩ := List.mem_map.mp hr
      rw [← hrr]
      refine ⟨by simp, ?_⟩
      simp only [List.head?_cons, ne_eq, Option.some.injEq]
      exact str_of_nat_ne_empty i
    · exact ih (i + 1) r hr

mutual
theorem flattenSegs_ne_nil (v : DeepVal) (h : good v = true) :
    flattenSegs v ≠ [] := by
  cases v with
  | str s => simp [flattenSegs]
  | map m =>
    simp only [good, Bool.and_eq_true] at h
    have hne : m ≠ [] := by
      intro hm
      rw [hm] at h
      simp at h
    rw [show flattenSegs (DeepVal.map m) = flattenMap m from by simp [flattenSegs]]
    exact flattenMap_ne_nil m hne h.2
  | arr l =>
    simp only [good, Bool.and_eq_true] at h
    have hne : l ≠ [] := by
      intro hl
      rw [hl] at h
      simp at h
    rw [show flattenSegs (DeepVal.arr l) = flattenArr 0 l from by simp [flattenSegs]]
    exact flattenArr_ne_nil l hne h.2 0

theorem flattenMap_ne_nil (m : List (String × DeepVal)) (hne : m ≠ [])
    (h : goodEntries m = true) : flattenMap m ≠ [] := by
  cases m with
  | nil => exact absurd rfl hne
  | cons q t =>
    simp only [goodEntries, Bool.and_eq_true] at h
    rw [show flattenMap (q :: t) =
      (flattenSegs q.2).map (fun r => (q.1 :: r.1, r.2)) ++ flattenMap t
      from by simp [flattenMap]]
    intro happ
    rcases List.append_eq_nil.mp happ with ⟨h1, _⟩
    exact flattenSegs_ne_nil q.2 h.1 (List.map_eq_nil.mp h1)

theorem flattenArr_ne_nil (l : List DeepVal) (hne : l ≠ [])
    (h : goodElems l = true) : ∀ (i : Nat), flattenArr i l ≠ [] := by
  cases l with
  | nil => exact absurd rfl hne
  | cons v t =>
    intro i
    simp only [goodElems, Bool.and_eq_true] at h
    rw [show flattenArr i (v :: t) =
      (flattenSegs v).map (fun r => (str_of_nat i :: r.1, r.2)) ++ flattenArr (i + 1) t
      from by simp [flattenArr]]
    intro happ
    rcases List.append_eq_nil.mp happ with ⟨h1, _⟩
    exact flattenSegs_ne_nil v h.1.1 (List.map_eq_nil.mp h1)
end

theorem foldAssign_append (c : DeepVal) (a b : List (List String × String)) :
    foldAssign c (a ++ b) = foldAssign (foldAssign c a) b := by
  unfold foldAssign
  rw [List.foldl_append]

mutual
theorem rebuild_val (v : DeepVal) (hgood : good v = true)
    (d : List (String × DeepVal)) (p : String) (hp : p ≠ "")
    (hfresh : PyDict.get d p = none) :
    foldAssign (.map d) ((flattenSegs v).map (fun r => (p :: r.1, r.2))) =
      .map (PyDict.set d p (reb v)) := by
  cases v with
  | str s =>
    rw [show flattenSegs (DeepVal.str s) = [([], s)] from by simp [flattenSegs]]
    show assign (.map d) [p] s = .map (PyDict.set d p (reb (.str s)))
    rw [show reb (DeepVal.str s) = DeepVal.str s from by simp [reb]]
    simp [assign, hp]
  | map m =>
    rw [show flattenSegs (DeepVal.map m) = flattenMap m from by simp [flattenSegs]]
    have hg := hgood
    simp only [good, Bool.and_eq_true] at hg
    obtain ⟨⟨⟨⟨hne, hkeysall⟩, hnodup⟩, _hcontig⟩, hGE⟩ := hg
    have hkeys : ∀ q ∈ m, keyOK q.1 = true := by
      intro q hq
      exact List.all_eq_true.mp hkeysall q.1 (List.mem_map.mpr ⟨q, hq, rfl⟩)
    have hmne : m ≠ [] := by
      intro h
      rw [h] at hne
      simp at hne
    cases hfm : flattenMap m with
    | nil => exact absurd hfm (flattenMap_ne_nil m hmne hGE)
    | cons fq ft =>
      have hpaths : ∀ r ∈ fq :: ft, r.1 ≠ [] ∧ r.1.head? ≠ some "" := by
        rw [← hfm]
        exact paths_ok_map m hkeys
      rw [foldAssign_lift ft fq p d hpaths]
      have hchild : childMap d p = [] := by
        unfold childMap
        rw [hfresh]
      rw [hchild, ← hfm,
        rebuild_entries m hGE hkeys hnodup [] (fun q _ => rfl)]
      rw [show reb (DeepVal.map m) = DeepVal.map (rebEntries m) from by simp [reb]]
      rw [List.nil_append]
  | arr l =>
    rw [show flattenSegs (DeepVal.arr l) = flattenArr 0 l from by simp [flattenSegs]]
    have hg := hgood
    simp only [good, Bool.and_eq_true] at hg
    obtain ⟨hne, hGL⟩ := hg
    have hlne : l ≠ [] := by
      intro h
      rw [h] at hne
      simp at hne
    cases hfa : flattenArr 0 l with
    | nil => exact absurd hfa (flattenArr_ne_nil l hlne hGL 0)
    | cons fq ft =>
      have hpaths : ∀ r ∈ fq :: ft, r.1 ≠ [] ∧ r.1.head? ≠ some "" := by
        rw [← hfa]
        exact paths_ok_arr l 0
      rw [foldAssign_lift ft fq p d hpaths]
      have hchild : childMap d p = [] := by
        unfold childMap
        rw [hfresh]
      rw [hchild, ← hfa,
        rebuild_arr l hGL 0 [] (fun j _ => rfl)]
      rw [show reb (DeepVal.arr l) = DeepVal.map (rebArr 0 l) from by simp [reb]]
      rw [List.nil_append]

theorem rebuild_entries (m : List (String × DeepVal))
    (hGE : goodEntries m = true) (hkeys : ∀ q ∈ m, keyOK q.1 = true)
    (hnodup : nodupStr (m.map Prod.fst) = true)
    (c : List (String × DeepVal)) (hfresh : ∀ q ∈ m, PyDict.get c q.1 = none) :
    foldAssign (.map c) (flattenMap m) = .map (c ++ rebEntries m) := by
  cases m with
  | nil =>
    rw [show flattenMap [] = [] from by simp [flattenMap]]
    rw [show rebEntries ([] : List (String × DeepVal)) = [] from by simp [rebEntries]]
    rw [List.append_nil]
    rfl
  | cons q t =>
    obtain ⟨k, v⟩ := q
    simp only [goodEntries, Bool.and_eq_true] at hGE
    simp only [List.map_cons, nodupStr, Bool.and_eq_true, Bool.not_eq_true'] at hnodup
    rw [show flattenMap ((k, v) :: t) =
      (flattenSegs v).map (fun r => (k :: r.1, r.2)) ++ flattenMap t
      from by simp [flattenMap]]
    rw [foldAssign_append]
    have hkOK : keyOK k = true := hkeys (k, v) (List.mem_cons_self _ t)
    rw [rebuild_val v hGE.1 c k (keyOK_ne_empty k hkOK)
      (hfresh (k, v) (List.mem_cons_self _ t))]
    rw [PyDict.set_fresh_append c k (reb v) (hfresh (k, v) (List.mem_cons_self _ t))]
    have hfresh' : ∀ x ∈ t, PyDict.get (c ++ [(k, reb v)]) x.1 = none := by
      intro x hx
      rw [PyDict.get_append_of_none c _ x.1 (hfresh x (List.mem_cons_of_mem _ hx))]
      apply PyDict.get_singleton_ne
      intro hkx
      have : x.1 ∈ t.map Prod.fst := List.mem_map.mpr ⟨x, hx, rfl⟩
      rw [← hkx] at this
      exact not_mem_of_contains_false _ _ hnodup.1 this
    rw [rebuild_entries t hGE.2 (fun x hx => hkeys x (List.mem_cons_of_mem _ hx))
      hnodup.2 (c ++ [(k, reb v)]) hfresh']
    rw [show rebEntries ((k, v) :: t) = (k, reb v) :: rebEntries t
      from by simp [rebEntries]]
    rw [List.append_assoc]
    rfl

theorem rebuild_arr (l : List DeepVal) (hGL : goodElems l = true)
    (i : Nat) (c : List (String × DeepVal))
    (hfresh : ∀ j, i ≤ j → PyDict.get c (str_of_nat j) = none) :
    foldAssign (.map c) (flattenArr i l) = .map (c ++ rebArr i l) := by
  cases l with
  | nil =>
    rw [show flattenArr i [] = [] from by simp [flattenArr]]
    rw [show rebArr i ([] : List DeepVal) = [] from by simp [rebArr]]
    rw [List.append_nil]
    rfl
  | cons v t =>
    simp only [goodElems, Bool.and_eq_true] at hGL
    rw [show flattenArr i (v :: t) =
      (flattenSegs v).map (fun r => (str_of_nat i :: r.1, r.2)) ++ flattenArr (i + 1) t
      from by simp [flattenArr]]
    rw [foldAssign_append]
    rw [rebuild_val v hGL.1.1 c (str_of_nat i) (str_of_nat_ne_empty i)
      (hfresh i (Nat.le_refl i))]
    rw [PyDict.set_fresh_append c _ (reb v) (hfresh i (Nat.le_refl i))]
    have hfresh' : ∀ j, i + 1 ≤ j →
        PyDict.get (c ++ [(str_of_nat i, reb v)]) (str_of_nat j) = none := by
      intro j hj
      rw [PyDict.get_append_of_none c _ _ (hfresh j (by omega))]
      apply PyDict.get_singleton_ne
      intro heq
      have := str_of_nat_inj i j heq
      omega
    rw [rebuild_arr t hGL.2 (i + 1) (c ++ [(str_of_nat i, reb v)]) hfresh']
    rw [show rebArr i (v :: t) = (str_of_nat i, reb v) :: rebArr (i + 1) t
      from by simp [rebArr]]
    rw [List.append_assoc]
    rfl
end

/-! ### From encoded string keys back to segment paths -/

mutual
theorem flattenSegs_segs_ok (v : DeepVal) (hgood : good v = true) :
    ∀ r ∈ flattenSegs v, ∀ s ∈ r.1, '[' ∉ s.data ∧ ']' ∉ s.data := by
  cases v with
  | str s =>
    intro r hr
    rw [show flattenSegs (DeepVal.str s) = [([], s)] from by simp [flattenSegs]] at hr
    rw [List.mem_singleton] at hr
    rw [hr]
    intro x hx
    simp at hx
  | map m =>
    simp only [good, Bool.and_eq_true] at hgood
    obtain ⟨⟨⟨⟨_, hkeysall⟩, _⟩, _⟩, hGE⟩ := hgood
    rw [show flattenSegs (DeepVal.map m) = flattenMap m from by simp [flattenSegs]]
    exact flattenMap_segs_ok m hGE
      (fun q hq => List.all_eq_true.mp hkeysall q.1 (List.mem_map.mpr ⟨q, hq, rfl⟩))
  | arr l =>
    simp only [good, Bool.and_eq_true] at hgood
    rw [show flattenSegs (DeepVal.arr l) = flattenArr 0 l from by simp [flattenSegs]]
    exact flattenArr_segs_ok l hgood.2 0

theorem flattenMap_segs_ok (m : List (String × DeepVal))
    (hGE : goodEntries m = true) (hkeys : ∀ q ∈ m, keyOK q.1 = true) :
    ∀ r ∈ flattenMap m, ∀ s ∈ r.1, '[' ∉ s.data ∧ ']' ∉ s.data := by
  cases m with
  | nil =>
    intro r hr
    rw [show flattenMap [] = [] from by simp [flattenMap]] at hr
    simp at hr
  | cons q t =>
    simp only [goodEntries, Bool.and_eq_true] at hGE
    intro r hr
    rw [show flattenMap (q :: t) =
      (flattenSegs q.2).map (fun r => (q.1 :: r.1, r.2)) ++ flattenMap t
      from by simp [flattenMap]] at hr
    rcases List.mem_append.mp hr with hr | hr
    · obtain ⟨r', hr', hrr⟩ := List.mem_map.mp hr
      rw [← hrr]
      intro s hs
      rcases List.mem_cons.mp hs with hs | hs
      · rw [hs]
        exact keyOK_no_brackets q.1 (hkeys q (List.mem_cons_self q t))
      · exact flattenSegs_segs_ok q.2 hGE.1 r' hr' s hs
    · exact flattenMap_segs_ok t hGE.2
        (fun x hx => hkeys x (List.mem_cons_of_mem q hx)) r hr

theorem flattenArr_segs_ok (l : List DeepVal) (hGL : goodElems l = true) :
    ∀ (i : Nat), ∀ r ∈ flattenArr i l, ∀ s ∈ r.1, '[' ∉ s.data ∧ ']' ∉ s.data := by
  cases l with
  | nil =>
    intro i r hr
    rw [show flattenArr i [] = [] from by simp [flattenArr]] at hr
    simp at hr
  | cons v t =>
    simp only [goodElems, Bool.and_eq_true] at hGL
    intro i r hr
    rw [show flattenArr i (v :: t) =
      (flattenSegs v).map (fun r => (str_of_nat i :: r.1, r.2)) ++ flattenArr (i + 1) t
      from by simp [flattenArr]] at hr
    rcases List.mem_append.mp hr with hr | hr
    · obtain ⟨r', hr', hrr⟩ := List.mem_map.mp hr
      rw [← hrr]
      intro s hs
      rcases List.mem_cons.mp hs with hs | hs
      · rw [hs]
        obtain ⟨h1, h2⟩ := str_of_nat_no_brackets i
        exact ⟨not_mem_of_contains_false _ _ (Bool.eq_false_iff.mpr h1),
          not_mem_of_contains_false _ _ (Bool.eq_false_iff.mpr h2)⟩
      · exact flattenSegs_segs_ok v hGL.1.1 r' hr' s hs
    · exact flattenArr_segs_ok t hGL.2 (i + 1) r hr
end

/-- The loop body of `convert_array_args` (source lines 1647-1673) as a
function of one `(key, value)` pair. -/
def convert_step (acc : List (String × DeepVal)) (key value : String) :
    List (String × DeepVal) :=
  if key.data.contains '[' then
    match assign (.map acc) (indicesOf key) value with
    | .map d => d
    | _ => acc
  else PyDict.set acc key (.str value)

theorem convert_array_args_fold_eq (args : List (String × String)) :
    convert_array_args_fold args =
      args.foldl (fun acc kv => convert_step acc kv.1 kv.2) [] := rfl

/-- On a well-formed encoded key the loop body performs exactly the
segment-level assignment. -/
theorem convert_step_encode (acc : List (String × DeepVal)) (k : String)
    (rest : List String) (s : String)
    (hk : keyOK k = true)
    (hrest : ∀ x ∈ rest, '[' ∉ x.data ∧ ']' ∉ x.data) :
    convert_step acc (encodeKey (k :: rest)) s =
      match assign (.map acc) (k :: rest) s with
      | .map d => d
      | _ => acc := by
  obtain ⟨hk1, hk2⟩ := keyOK_no_brackets k hk
  unfold convert_step
  rw [encodeKey_contains_bracket k rest hk1]
  cases rest with
  | nil =>
    rw [show (!([] : List String).isEmpty) = false from rfl]
    simp only [Bool.false_eq_true, if_false]
    have hne := keyOK_ne_empty k hk
    have he : encodeKey [k] = k := by simp [encodeKey, encodeTail]
    rw [he]
    show PyDict.set acc k (.str s) =
      match assign (.map acc) [k] s with
      | .map d => d
      | _ => acc
    rw [show assign (.map acc) [k] s = .map (PyDict.set acc k (.str s))
      from by simp [assign, hne]]
  | cons x rest' =>
    rw [show (!((x :: rest') : List String).isEmpty) = true from rfl]
    simp only [if_true]
    rw [indicesOf_encodeKey k (x :: rest') ⟨hk1, hk2⟩ hrest]

/-- The string-keyed loop of `convert_array_args` computes exactly the
segment-level assign fold, pair by pair. -/
theorem encoded_fold_corr :
    ∀ (rs : List (List String × String)) (k : String)
      (c : List (String × DeepVal)),
      keyOK k = true →
      (∀ r ∈ rs, ∀ s ∈ r.1, '[' ∉ s.data ∧ ']' ∉ s.data) →
      ∃ d, foldAssign (.map c) (rs.map (fun r => (k :: r.1, r.2))) = .map d ∧
        (rs.map (fun r => (encodeKey (k :: r.1), r.2))).foldl
          (fun acc kv => convert_step acc kv.1 kv.2) c = d := by
  intro rs
  induction rs with
  | nil =>
    intro k c _ _
    exact ⟨c, rfl, rfl⟩
  | cons r rest ih =>
    intro k c hk hsegs
    obtain ⟨d₁, hd₁⟩ := assign_map_is_map c (k :: r.1) r.2 (by simp)
    have hstep : convert_step c (encodeKey (k :: r.1)) r.2 = d₁ := by
      rw [convert_step_encode c k r.1 r.2 hk
        (fun x hx => hsegs r (List.mem_cons_self r rest) x hx)]
      rw [hd₁]
    obtain ⟨d, hseg, henc⟩ := ih k d₁ hk
      (fun x hx => hsegs x (List.mem_cons_of_mem r hx))
    refine ⟨d, ?_, ?_⟩
    · show foldAssign (assign (.map c) (k :: r.1) r.2)
        (rest.map (fun r => (k :: r.1, r.2))) = .map d
      rw [hd₁]
      exact hseg
    · show (rest.map (fun r => (encodeKey (k :: r.1), r.2))).foldl
        (fun acc kv => convert_step acc kv.1 kv.2)
        (convert_step c (encodeKey (k :: r.1)) r.2) = d
      rw [hstep]
      exact henc

/-- One flattened subtree, processed by the loop of `convert_array_args`,
installs the rebuilt subtree under its (fresh) top-level key. -/
theorem phaseA_entry (v : DeepVal) (hgood : good v = true) (k : String)
    (hk : keyOK k = true) (c : List (String × DeepVal))
    (hfresh : PyDict.get c k = none) :
    ((flattenSegs v).map (fun r => (encodeKey (k :: r.1), r.2))).foldl
      (fun acc kv => convert_step acc kv.1 kv.2) c =
      PyDict.set c k (reb v) := by
  obtain ⟨d, hseg, henc⟩ := encoded_fold_corr (flattenSegs v) k c hk
    (flattenSegs_segs_ok v hgood)
  rw [rebuild_val v hgood c k (keyOK_ne_empty k hk) hfresh] at hseg
  have hd : d = PyDict.set c k (reb v) := by
    injection hseg.symm
  rw [henc, hd]

theorem phaseA_fold :
    ∀ (top : List (String × DeepVal)) (c : List (String × DeepVal)),
      (∀ p ∈ top, keyOK p.1 = true) →
      nodupStr (top.map Prod.fst) = true →
      goodEntries top = true →
      (∀ p ∈ top, PyDict.get c p.1 = none) →
      (flatten top).foldl (fun acc kv => convert_step acc kv.1 kv.2) c =
        c ++ rebEntries top := by
  intro top
  induction top with
  | nil =>
    intro c _ _ _ _
    rw [show flatten [] = [] from by simp [flatten]]
    rw [show rebEntries ([] : List (String × DeepVal)) = [] from by simp [rebEntries]]
    rw [List.append_nil]
    rfl
  | cons p t ih =>
    intro c hkeys hnodup hGE hfresh
    obtain ⟨k, v⟩ := p
    simp only [goodEntries, Bool.and_eq_true] at hGE
    simp only [List.map_cons, nodupStr, Bool.and_eq_true, Bool.not_eq_true'] at hnodup
    rw [show flatten ((k, v) :: t) =
      (flattenSegs v).map (fun r => (encodeKey (k :: r.1), r.2)) ++ flatten t
      from by simp [flatten]]
    rw [List.foldl_append]
    have hkOK : keyOK k = true := hkeys (k, v) (List.mem_cons_self _ t)
    rw [phaseA_entry v hGE.1 k hkOK c (hfresh (k, v) (List.mem_cons_self _ t))]
    rw [PyDict.set_fresh_append c k (reb v) (hfresh (k, v) (List.mem_cons_self _ t))]
    have hfresh' : ∀ x ∈ t, PyDict.get (c ++ [(k, reb v)]) x.1 = none := by
      intro x hx
      rw [PyDict.get_append_of_none c _ x.1 (hfresh x (List.mem_cons_of_mem _ hx))]
      apply PyDict.get_singleton_ne
      intro hkx
      have hmm : x.1 ∈ t.map Prod.fst := List.mem_map.mpr ⟨x, hx, rfl⟩
      rw [← hkx] at hmm
      exact not_mem_of_contains_false _ _ hnodup.1 hmm
    rw [ih (c ++ [(k, reb v)]) (fun x hx => hkeys x (List.mem_cons_of_mem _ hx))
      hnodup.2 hGE.2 hfresh']
    rw [show rebEntries ((k, v) :: t) = (k, reb v) :: rebEntries t
      from by simp [rebEntries]]
    rw [List.append_assoc]
    rfl

/-- Phase A: for a well-formed top-level structure, the loop of
`convert_array_args` rebuilds it with every list appearing as a dict keyed
by its decimal indices. -/
theorem phaseA (top : List (String × DeepVal))
    (hkeys : ∀ p ∈ top, keyOK p.1 = true)
    (hnodup : nodupStr (top.map Prod.fst) = true)
    (hGE : goodEntries top = true) :
    convert_array_args_fold (flatten top) = rebEntries top := by
  rw [convert_array_args_fold_eq,
    phaseA_fold top [] hkeys hnodup hGE (fun p _ => rfl)]
  rfl

/-! ### Phase B: converting contiguous-integer dicts back to arrays -/

mutual
theorem reb_eq_self_of_noArr (v : DeepVal) (h : noArr v = true) : reb v = v := by
  cases v with
  | str s => simp [reb]
  | arr l => simp [noArr] at h
  | map m =>
    rw [show noArr (DeepVal.map m) = noArrEntries m from by simp [noArr]] at h
    rw [show reb (DeepVal.map m) = DeepVal.map (rebEntries m) from by simp [reb]]
    rw [rebEntries_eq_self_of_noArr m h]

theorem rebEntries_eq_self_of_noArr (m : List (String × DeepVal))
    (h : noArrEntries m = true) : rebEntries m = m := by
  cases m with
  | nil => simp [rebEntries]
  | cons q t =>
    rw [show noArrEntries (q :: t) = (noArr q.2 && noArrEntries t)
      from by simp [noArrEntries]] at h
    rw [Bool.and_eq_true] at h
    rw [show rebEntries (q :: t) = (q.1, reb q.2) :: rebEntries t
      from by simp [rebEntries]]
    rw [reb_eq_self_of_noArr q.2 h.1, rebEntries_eq_self_of_noArr t h.2]

end

theorem map_reb_eq_self (l : List DeepVal) (h : goodElems l = true) :
    l.map reb = l := by
  induction l with
  | nil => rfl
  | cons v t ih =>
    rw [show goodElems (v :: t) = (good v && noArr v && goodElems t)
      from by simp [goodElems]] at h
    simp only [Bool.and_eq_true] at h
    rw [List.map_cons, reb_eq_self_of_noArr v h.1.2, ih h.2]

theorem rebEntries_keys (m : List (String × DeepVal)) :
    (rebEntries m).map Prod.fst = m.map Prod.fst := by
  induction m with
  | nil => simp [rebEntries]
  | cons q t ih =>
    rw [show rebEntries (q :: t) = (q.1, reb q.2) :: rebEntries t
      from by simp [rebEntries]]
    simp only [List.map_cons, ih]

theorem rebEntries_length (m : List (String × DeepVal)) :
    (rebEntries m).length = m.length := by
  have h := rebEntries_keys m
  have := congrArg List.length h
  simpa using this

theorem hasKey_eq_keys (d : List (String × α)) (k : String) :
    PyDict.hasKey d k = (d.map Prod.fst).any (fun x => x == k) := by
  induction d with
  | nil => rfl
  | cons p t ih =>
    simp only [PyDict.hasKey, List.any_cons, List.map_cons] at ih ⊢
    rw [ih]

theorem has_contiguous_rebEntries (m : List (String × DeepVal)) :
    has_contiguous_int_keys (rebEntries m) = has_contiguous_int_keys m := by
  unfold has_contiguous_int_keys
  rw [rebEntries_length]
  have hfun : ∀ i, PyDict.hasKey (rebEntries m) (str_of_nat i) =
      PyDict.hasKey m (str_of_nat i) := by
    intro i
    rw [hasKey_eq_keys, hasKey_eq_keys, rebEntries_keys]
  simp only [hfun]

theorem rebArr_length (l : List DeepVal) : ∀ i, (rebArr i l).length = l.length := by
  induction l with
  | nil => intro i; simp [rebArr]
  | cons v t ih =>
    intro i
    rw [show rebArr i (v :: t) = (str_of_nat i, reb v) :: rebArr (i + 1) t
      from by simp [rebArr]]
    simp [ih (i + 1)]

theorem rebArr_get (l : List DeepVal) :
    ∀ (i j : Nat), PyDict.get (rebArr i l) (str_of_nat (i + j)) =
      (l.get? j).map reb := by
  induction l with
  | nil => intro i j; simp [rebArr, PyDict.get]
  | cons v t ih =>
    intro i j
    rw [show rebArr i (v :: t) = (str_of_nat i, reb v) :: rebArr (i + 1) t
      from by simp [rebArr]]
    cases j with
    | zero =>
      simp only [PyDict.get, List.find?_cons, Nat.add_zero, beq_self_eq_true,
        Option.map_some', List.get?]
    | succ j' =>
      have hne : (str_of_nat i == str_of_nat (i + (j' + 1))) = false := by
        rw [beq_eq_false_iff_ne]
        intro heq
        have := str_of_nat_inj _ _ heq
        omega
      simp only [PyDict.get, List.find?_cons, hne]
      have := ih (i + 1) j'
      rw [show i + 1 + j' = i + (j' + 1) by omega] at this
      simp only [PyDict.get] at this
      rw [this]
      rfl

theorem hasKey_of_get_some (d : List (String × α)) (k : String) (v : α)
    (h : PyDict.get d k = some v) : PyDict.hasKey d k = true := by
  induction d with
  | nil => simp [PyDict.get] at h
  | cons p t ih =>
    cases hb : (p.1 == k) with
    | true => simp [PyDict.hasKey, List.any_cons, hb]
    | false =>
      simp only [PyDict.get, List.find?_cons, hb] at h
      simp only [PyDict.hasKey, List.any_cons, hb, Bool.false_or]
      exact ih h

theorem has_contiguous_rebArr (l : List DeepVal) :
    has_contiguous_int_keys (rebArr 0 l) = true := by
  unfold has_contiguous_int_keys
  rw [List.all_eq_true]
  intro i hi
  rw [List.mem_range, rebArr_length] at hi
  have hget := rebArr_get l 0 i
  rw [Nat.zero_add] at hget
  rw [List.get?_eq_getElem?, List.getElem?_eq_getElem hi] at hget
  exact hasKey_of_get_some _ _ _ hget

theorem convert_dict_to_array_rebArr (l : List DeepVal) :
    convert_dict_to_array (rebArr 0 l) = l.map reb := by
  unfold convert_dict_to_array
  rw [rebArr_length]
  apply List.ext_getElem
  · simp
  · intro i h1 h2
    rw [List.getElem_map]
    rw [List.getElem_map]
    rw [List.getElem_range]
    have hget := rebArr_get l 0 i
    rw [Nat.zero_add] at hget
    have hi : i < l.length := by simpa using h2
    rw [List.get?_eq_getElem?, List.getElem?_eq_getElem hi] at hget
    rw [hget]
    rfl
/-- Phase B, with an explicit size bound for the recursion:
`_convert_dicts_to_arrays` turns exactly the decimal-index dicts produced
by the rebuild back into the original lists and leaves everything else as
it was. -/
theorem convert_reb_entries_fuel :
    ∀ (n : Nat) (m : List (String × DeepVal)), sizeOf m ≤ n →
      goodEntries m = true → convert_dicts_to_arrays (rebEntries m) = m := by
  intro n
  induction n with
  | zero =>
    intro m hm _
    have h1 : 1 ≤ sizeOf m := by cases m <;> simp_arith
    omega
  | succ n ih =>
    intro m hm hGE
    cases m with
    | nil =>
      rw [show rebEntries ([] : List (String × DeepVal)) = []
        from by simp [rebEntries]]
      simp [convert_dicts_to_arrays]
    | cons q t =>
      obtain ⟨k, v⟩ := q
      simp only [goodEntries, Bool.and_eq_true] at hGE
      rw [show rebEntries ((k, v) :: t) = (k, reb v) :: rebEntries t
        from by simp [rebEntries]]
      simp only [List.cons.sizeOf_spec, Prod.mk.sizeOf_spec] at hm
      cases v with
      | str s =>
        rw [show reb (DeepVal.str s) = .str s from by simp [reb]]
        rw [show convert_dicts_to_arrays ((k, DeepVal.str s) :: rebEntries t) =
          (k, DeepVal.str s) :: convert_dicts_to_arrays (rebEntries t)
          from by simp [convert_dicts_to_arrays]]
        rw [ih t (by omega) hGE.2]
      | map m' =>
        have hg := hGE.1
        simp only [good, Bool.and_eq_true] at hg
        obtain ⟨⟨⟨⟨_, _⟩, _⟩, hcontig⟩, hGE'⟩ := hg
        simp only [DeepVal.map.sizeOf_spec] at hm
        rw [show reb (DeepVal.map m') = .map (rebEntries m') from by simp [reb]]
        rw [show convert_dicts_to_arrays
            ((k, DeepVal.map (rebEntries m')) :: rebEntries t) =
          (if has_contiguous_int_keys (rebEntries m') then
             (k, DeepVal.arr (convert_dict_to_array (rebEntries m')))
           else (k, DeepVal.map (convert_dicts_to_arrays (rebEntries m')))) ::
            convert_dicts_to_arrays (rebEntries t)
          from by simp [convert_dicts_to_arrays]]
        rw [has_contiguous_rebEntries m']
        rw [Bool.not_eq_true'] at hcontig
        rw [hcontig]
        simp only [Bool.false_eq_true, if_false]
        rw [ih m' (by omega) hGE', ih t (by omega) hGE.2]
      | arr l =>
        have hg := hGE.1
        simp only [good, Bool.and_eq_true] at hg
        rw [show reb (DeepVal.arr l) = .map (rebArr 0 l) from by simp [reb]]
        rw [show convert_dicts_to_arrays
            ((k, DeepVal.map (rebArr 0 l)) :: rebEntries t) =
          (if has_contiguous_int_keys (rebArr 0 l) then
             (k, DeepVal.arr (convert_dict_to_array (rebArr 0 l)))
           else (k, DeepVal.map (convert_dicts_to_arrays (rebArr 0 l)))) ::
            convert_dicts_to_arrays (rebEntries t)
          from by simp [convert_dicts_to_arrays]]
        rw [has_contiguous_rebArr l]
        simp only [if_true]
        rw [convert_dict_to_array_rebArr l, map_reb_eq_self l hg.2,
          ih t (by omega) hGE.2]

/-- Phase B without the fuel. -/
theorem convert_reb_entries (m : List (String × DeepVal))
    (hGE : goodEntries m = true) :
    convert_dicts_to_arrays (rebEntries m) = m :=
  convert_reb_entries_fuel (sizeOf m) m (Nat.le_refl _) hGE

/-- C9 amended: `convert_array_args` is a left inverse of the PHP-style
flattening *on the structures the conversion can faithfully restore*: maps
must be nonempty with distinct, nonempty, bracket-free keys and never
keyed by exactly the contiguous decimal integers `0 … n-1`, lists must be
nonempty, encoded with explicit indices `[0] … [n-1]`, and contain no
nested list below them (the conversion never recurses inside a converted
array).  In particular a flat dict of bracket-free keys and string values
passes through unchanged (the special case where every value is a
string).  As stated in the claim the round trip fails: a sub-map keyed by
exactly `0 … n-1` is returned as the list of its values (see the
counterexample), and the empty-bracket append encoding cannot represent a
multi-element list at all, because its elements would share one dict
key. -/
theorem C9_deep_array_roundtrip (top : List (String × DeepVal))
    (hkeys : ∀ p ∈ top, keyOK p.1 = true)
    (hnodup : nodupStr (top.map Prod.fst) = true)
    (hGE : goodEntries top = true) :
    convert_array_args (flatten top) = top := by
  show convert_dicts_to_arrays (convert_array_args_fold (flatten top)) = top
  rw [phaseA top hkeys hnodup hGE, convert_reb_entries top hGE]

/-- C9 counterexample: the claim's round trip fails on the nested map
`{"a": {"0": "x"}}`: it flattens to the single key `a[0]`, and
`convert_array_args` returns `{"a": ["x"]}` — a list, not the original
map — because the rebuilt sub-dict has the contiguous integer key `0`. -/
theorem C9_contiguous_map_not_restored :
    flatten [("a", DeepVal.map [("0", DeepVal.str "x")])] = [("a[0]", "x")] ∧
    convert_array_args [("a[0]", "x")] = [("a", DeepVal.arr [DeepVal.str "x"])] ∧
    DeepVal.arr [DeepVal.str "x"] ≠ DeepVal.map [("0", DeepVal.str "x")] := by
  refine ⟨?_, ?_, by simp⟩
  · simp [flatten, flattenSegs, flattenMap, encodeKey, encodeTail]
  · show convert_dicts_to_arrays (convert_array_args_fold [("a[0]", "x")]) = _
    have h1 : convert_array_args_fold [("a[0]", "x")] =
        [("a", DeepVal.map [("0", DeepVal.str "x")])] := rfl
    rw [h1]
    have hc : has_contiguous_int_keys [("0", DeepVal.str "x")] = true := rfl
    rw [show convert_dicts_to_arrays [("a", DeepVal.map [("0", DeepVal.str "x")])] =
      (if has_contiguous_int_keys [("0", DeepVal.str "x")] then
         ("a", DeepVal.arr (convert_dict_to_array [("0", DeepVal.str "x")]))
       else ("a", DeepVal.map (convert_dicts_to_arrays [("0", DeepVal.str "x")]))) ::
        convert_dicts_to_arrays []
      from by simp [convert_dicts_to_arrays]]
    rw [hc]
    simp only [if_true]
    rw [show convert_dicts_to_arrays ([] : List (String × DeepVal)) = []
      from by simp [convert_dicts_to_arrays]]
    rfl

/-- C9 witness: a two-entry structure with a nested map and a two-element
list survives the round trip. -/
theorem C9_deep_array_roundtrip_witness :
    convert_array_args
        (flatten [("user", DeepVal.map [("name", DeepVal.str "bob")]),
                  ("tags", DeepVal.arr [DeepVal.str "x", DeepVal.str "y"])]) =
      [("user", DeepVal.map [("name", DeepVal.str "bob")]),
       ("tags", DeepVal.arr [DeepVal.str "x", DeepVal.str "y"])] := by
  apply C9_deep_array_roundtrip
  · intro p hp
    rcases List.mem_cons.mp hp with h | h
    · rw [h]; rfl
    · rcases List.mem_cons.mp h with h | h
      · rw [h]; rfl
      · simp at h
  · rfl
  · show goodEntries _ = true
    simp [goodEntries, good, goodElems, noArr, noArrEntries,
      has_contiguous_int_keys, PyDict.hasKey, keyOK, nodupStr, str_of_nat,
      toDecimalAux, digitChar10]
